import Mathlib

/-!
Verification of the 2048 `IntelligentAgent` (src/IntelligentAgent.py).

The agent is a depth-limited adversarial search: a maximizing layer over the
player's legal moves and a chance layer (treated as an adversarial minimizer)
over tile insertions at the top-4 empty cells ranked by a fixed snake-shaped
weight table, with alpha-beta pruning, iterative deepening under a wall-clock
budget, and a composite heuristic evaluation.

The board mechanics (sliding/merging, move enumeration, empty-cell listing)
live in an external `Grid` collaborator that the agent only calls through a
fixed contract, so the search is embedded parametrically over that contract
(`GridOps`), and contract hypotheses (`CellsContract`, `MovesContract`) are
assumed where a claim needs them.

Python floats are embedded as exact rationals; `float('-inf')`/`float('inf')`
are embedded with the order completion `WithBot (WithTop ℚ)`.
-/

namespace Agent2048

/-- A board cell coordinate `(row, col)` with `N = 4`. -/
abbrev Cell := Fin 4 × Fin 4

/-- A 4×4 board of tile values; `0` is an empty cell (`grid.map[x][y]`). -/
abbrev Board := Fin 4 → Fin 4 → ℕ

/-- A player move (up/down/left/right); its identity never matters to the
search, only the successor board attached to it by the Grid collaborator. -/
inductive Move where
  | up | down | left | right
deriving DecidableEq, Repr

/-- Utility values: rationals extended with `-∞` and `+∞`, embedding the
Python floats (including `float('-inf')`, `float('inf')`) used by the search. -/
abbrev UtilityValue := WithBot (WithTop ℚ)

/-- Embed a finite rational utility into `UtilityValue`. -/
def uval (q : ℚ) : UtilityValue := ((q : WithTop ℚ) : UtilityValue)

/-- The external `Grid` collaborator of §6 of the spec: the only board
mechanics the agent calls. `moves` is `getAvailableMoves()` (legal moves with
their already-slid/merged successor boards), `canMove` is `canMove()`, and
`cells` is `getAvailableCells()` (the empty-cell coordinates, in whatever
order the collaborator enumerates them). -/
structure GridOps where
  moves : Board → List (Move × Board)
  canMove : Board → Bool
  cells : Board → List Cell

/-- Contract for `getAvailableCells()`: it lists exactly the empty cells of
the board, each once. -/
def CellsContract (ops : GridOps) : Prop :=
  ∀ g : Board, (ops.cells g).Nodup ∧ ∀ c : Cell, c ∈ ops.cells g ↔ g c.1 c.2 = 0

/-- Contract for `canMove()` versus `getAvailableMoves()`: at least one legal
move exists iff the move list is nonempty. -/
def MovesContract (ops : GridOps) : Prop :=
  ∀ g : Board, (ops.canMove g = true ↔ ops.moves g ≠ [])

/-- `playerMoveTimeLimit = 0.2` (seconds). -/
def playerMoveTimeLimit : ℚ := 0.2

/-- `possibleTileProbabilities = [(2, 0.9), (4, 0.1)]`. -/
def possibleTileProbabilities : List (ℕ × ℚ) := [(2, 0.9), (4, 0.1)]

/-- The fixed snake-shaped positional weight table (`snakeShapedWeights`). -/
def snakeShapedWeights : Fin 4 → Fin 4 → ℕ :=
  ![![4^15, 4^14, 4^13, 4^12],
    ![4^8,  4^9,  4^10, 4^11],
    ![4^7,  4^6,  4^5,  4^4],
    ![4^0,  4^1,  4^2,  4^3]]

/-- Heuristic weight `snakeWeight`. -/
def snakeWeight : ℚ := 0.15966252220214197

/-- Heuristic weight `smoothnessWeight`. -/
def smoothnessWeight : ℚ := 2.3089382562214906

/-- Heuristic weight `emptyCellsWeight`. -/
def emptyCellsWeight : ℚ := 2.410254660260118

/-- Heuristic weight `maxInCornerWeight`. -/
def maxInCornerWeight : ℚ := 6.832635188254583

/-- `getCellSnakeImportance(grid, cell)`: the snake-table weight at the
cell's coordinates; the grid argument is taken but never read, exactly as in
the source. -/
def getCellSnakeImportance (_grid : Board) (cell : Cell) : ℕ :=
  snakeShapedWeights cell.1 cell.2

/-- `calcSnakeAdherence(grid)`: the double loop accumulating
`grid.map[x][y] * snakeShapedWeights[x][y]` over all cells. -/
def calcSnakeAdherence (g : Board) : ℕ :=
  (List.finRange 4).foldl (fun acc x =>
    (List.finRange 4).foldl (fun acc y =>
      acc + g x y * snakeShapedWeights x y) acc) 0

/-- `calcSmoothness(grid)`: for every cell, subtract the absolute difference
with the right neighbour (when `x+1 < size`) and with the below neighbour
(when `y+1 < size`). -/
def calcSmoothness (g : Board) : ℚ :=
  (List.finRange 4).foldl (fun acc x =>
    (List.finRange 4).foldl (fun acc y =>
      let current := g x y
      let acc1 := if h : (x : ℕ) + 1 < 4 then
          acc - |(current : ℚ) - (g ⟨(x : ℕ) + 1, h⟩ y : ℚ)| else acc
      if h : (y : ℕ) + 1 < 4 then
          acc1 - |(current : ℚ) - (g x ⟨(y : ℕ) + 1, h⟩ : ℚ)| else acc1) acc) 0

/-- `getEmptyCells(grid)`: `len(grid.getAvailableCells())`. -/
def getEmptyCells (ops : GridOps) (g : Board) : ℕ :=
  (ops.cells g).length

/-- The board flattened row-major, as in
`(cell for row in grid.map for cell in row)`. -/
def rowMajor (g : Board) : List ℕ :=
  ((List.finRange 4).map (fun x => (List.finRange 4).map (fun y => g x y))).flatten

/-- `checkMaxTileInCorner(grid)`: the board maximum (Python `max` over the
row-major flattening; folding from `0` is identical on naturals) compared
with the top-left tile. -/
def checkMaxTileInCorner (g : Board) : ℤ :=
  let maxTile := (rowMajor g).foldl Nat.max 0
  let topLeftTile := g 0 0
  if topLeftTile = maxTile then (maxTile : ℤ)
  else -|(maxTile : ℤ) - (topLeftTile : ℤ)|

/-- `evaluate(grid)`: the weighted sum of the four heuristics. -/
def evaluate (ops : GridOps) (g : Board) : ℚ :=
  snakeWeight * (calcSnakeAdherence g : ℚ) +
  smoothnessWeight * calcSmoothness g +
  emptyCellsWeight * (getEmptyCells ops g : ℚ) +
  maxInCornerWeight * (checkMaxTileInCorner g : ℚ)

/-! ## Spec-side descriptions of the evaluation sub-scores

These definitions follow the spec's words, to be compared with the loop
translations above. -/

/-- Spec side: the board's maximum tile value. -/
def boardMax (g : Board) : ℕ := Finset.univ.sup (fun c : Cell => g c.1 c.2)

/-- Spec side: snake adherence is the sum over all cells of the tile value
times the snake weight at that cell's coordinates. -/
def snakeSub (g : Board) : ℚ :=
  ∑ c : Cell, (g c.1 c.2 : ℚ) * (snakeShapedWeights c.1 c.2 : ℚ)

/-- Spec side: smoothness is the negative sum, over each horizontally- and
vertically-adjacent pair of cells (each pair counted once), of the absolute
difference of the two tile values. -/
def smoothSub (g : Board) : ℚ :=
  -((∑ x : Fin 3, ∑ y : Fin 4, |(g x.castSucc y : ℚ) - (g x.succ y : ℚ)|) +
    (∑ x : Fin 4, ∑ y : Fin 3, |(g x y.castSucc : ℚ) - (g x y.succ : ℚ)|))

/-- Spec side: the number of zero-valued cells. -/
def emptySub (g : Board) : ℕ :=
  (Finset.univ.filter (fun c : Cell => g c.1 c.2 = 0)).card

/-- Spec side: the corner bonus — the maximum tile value when `(0,0)` holds a
tile equal to it, otherwise the negated absolute gap to `(0,0)`. -/
def cornerSub (g : Board) : ℤ :=
  if g 0 0 = boardMax g then (boardMax g : ℤ)
  else -|(boardMax g : ℤ) - (g 0 0 : ℤ)|

/-- `child = grid.clone(); child.setCellValue(cell, tileValue)`: the successor
board with one cell overwritten (the clone is implicit in the value model). -/
def setCellValue (g : Board) (c : Cell) (v : ℕ) : Board :=
  fun x y => if x = c.1 ∧ y = c.2 then v else g x y

/-- Line 98 of the source:
`sorted(grid.getAvailableCells(), key=..getCellSnakeImportance, reverse=True)[:4]`.
`List.mergeSort` with "later importance ≤ earlier importance" is the stable
descending sort that Python's `sorted(..., reverse=True)` performs. -/
def rankCells (ops : GridOps) (g : Board) : List Cell :=
  ((ops.cells g).mergeSort
    (fun a b => decide (getCellSnakeImportance g b ≤ getCellSnakeImportance g a))).take 4

/-! ## The search core, with timeouts disabled

`maximize`/`minimize` below are the source's `maximize`/`minimize` with the
wall-clock check removed (the configuration under which the pruning claim is
stated); the `for` loops with their `break`s become the `...Loop`/`...Cells`/
`...Tiles` helpers. -/

mutual

/-- `maximize(grid, alpha, beta, depth)`, timeouts disabled. -/
def maximize (ops : GridOps) : ℕ → Board → UtilityValue → UtilityValue →
    UtilityValue × Option Move
  | depth, g, alpha, beta =>
    if h : depth = 0 ∨ ops.canMove g = false then (uval (evaluate ops g), none)
    else maximizeLoop ops (depth - 1) (ops.moves g) alpha beta ⊥ none
termination_by d _ _ _ => (d, 2, 0)
decreasing_by omega

/-- The `for move, child in grid.getAvailableMoves()` loop of `maximize`:
state is `(alpha, maxStateUtility, maxChildMove)`; `break` on `beta <= alpha`. -/
def maximizeLoop (ops : GridOps) (d : ℕ) : List (Move × Board) →
    UtilityValue → UtilityValue → UtilityValue → Option Move →
    UtilityValue × Option Move
  | [], _, _, acc, best => (acc, best)
  | (move, child) :: rest, alpha, beta, acc, best =>
    let u := (chance ops d child alpha beta).1
    let s := if acc < u then (u, some move) else (acc, best)
    let alpha' := max alpha u
    if beta ≤ alpha' then s
    else maximizeLoop ops d rest alpha' beta s.1 s.2
termination_by ms _ _ _ _ => (d, 5, ms.length)

/-- `chance(grid, alpha, beta, depth)`: chance nodes are treated as min
nodes. -/
def chance (ops : GridOps) (d : ℕ) (g : Board) (alpha beta : UtilityValue) :
    UtilityValue × Option Move :=
  minimize ops d g alpha beta
termination_by (d, 4, 0)

/-- `minimize(grid, alpha, beta, depth)`, timeouts disabled. -/
def minimize (ops : GridOps) : ℕ → Board → UtilityValue → UtilityValue →
    UtilityValue × Option Move
  | depth, g, alpha, beta =>
    if h : depth = 0 ∨ ops.canMove g = false then (uval (evaluate ops g), none)
    else
      (minimizeCells ops (depth - 1) g (rankCells ops g) alpha beta ⊤, none)
termination_by d _ _ _ => (d, 3, 0)
decreasing_by omega

/-- The outer `for cell in emptyCells` loop of `minimize`: state is
`(beta, minStateUtility)`; `break` on `beta <= alpha` after the inner loop. -/
def minimizeCells (ops : GridOps) (d : ℕ) (g : Board) : List Cell →
    UtilityValue → UtilityValue → UtilityValue → UtilityValue
  | [], _, _, acc => acc
  | c :: rest, alpha, beta, acc =>
    let s := minimizeTiles ops d g c possibleTileProbabilities alpha beta acc
    if s.2 ≤ alpha then s.1
    else minimizeCells ops d g rest alpha s.2 s.1
termination_by cs _ _ _ => (d, 5, cs.length)

/-- The inner `for tileValue, probability in possibleTileProbabilities` loop
of `minimize`; returns `(minStateUtility, beta)`. -/
def minimizeTiles (ops : GridOps) (d : ℕ) (g : Board) (c : Cell) :
    List (ℕ × ℚ) → UtilityValue → UtilityValue → UtilityValue →
    UtilityValue × UtilityValue
  | [], _, beta, acc => (acc, beta)
  | (tileValue, _) :: rest, alpha, beta, acc =>
    let child := setCellValue g c tileValue
    let u := (maximize ops d child alpha beta).1
    let acc' := min acc u
    let beta' := min beta u
    if beta' ≤ alpha then (acc', beta')
    else minimizeTiles ops d g c rest alpha beta' acc'
termination_by ts _ _ _ => (d, 4, ts.length)

end

/-! ## The unpruned full traversal (spec side)

`maximizeFull`/`minimizeFull` are written from the spec's words: the same
tree — same terminal condition, same move enumeration, same top-4 filtered
candidate cells and both tile values, same strict-improvement move tracking
and min/max aggregation — but with no alpha-beta window and no cutoffs. -/

mutual

/-- Unpruned maximizing layer. -/
def maximizeFull (ops : GridOps) : ℕ → Board → UtilityValue × Option Move
  | depth, g =>
    if h : depth = 0 ∨ ops.canMove g = false then (uval (evaluate ops g), none)
    else maximizeFullLoop ops (depth - 1) (ops.moves g) ⊥ none
termination_by d _ => (d, 2, 0)
decreasing_by omega

/-- Unpruned move loop: strict-improvement tracking, no cutoff. -/
def maximizeFullLoop (ops : GridOps) (d : ℕ) : List (Move × Board) →
    UtilityValue → Option Move → UtilityValue × Option Move
  | [], acc, best => (acc, best)
  | (move, child) :: rest, acc, best =>
    let u := (minimizeFull ops d child).1
    if acc < u then maximizeFullLoop ops d rest u (some move)
    else maximizeFullLoop ops d rest acc best
termination_by ms _ _ => (d, 5, ms.length)

/-- Unpruned chance layer over the same top-4 filtered cells. -/
def minimizeFull (ops : GridOps) : ℕ → Board → UtilityValue × Option Move
  | depth, g =>
    if h : depth = 0 ∨ ops.canMove g = false then (uval (evaluate ops g), none)
    else (minimizeFullCells ops (depth - 1) g (rankCells ops g) ⊤, none)
termination_by d _ => (d, 3, 0)
decreasing_by omega

/-- Unpruned cell loop. -/
def minimizeFullCells (ops : GridOps) (d : ℕ) (g : Board) : List Cell →
    UtilityValue → UtilityValue
  | [], acc => acc
  | c :: rest, acc =>
    minimizeFullCells ops d g rest
      (minimizeFullTiles ops d g c possibleTileProbabilities acc)
termination_by cs _ => (d, 5, cs.length)

/-- Unpruned tile loop. -/
def minimizeFullTiles (ops : GridOps) (d : ℕ) (g : Board) (c : Cell) :
    List (ℕ × ℚ) → UtilityValue → UtilityValue
  | [], acc => acc
  | (tileValue, _) :: rest, acc =>
    let child := setCellValue g c tileValue
    minimizeFullTiles ops d g c rest (min acc (maximizeFull ops d child).1)
termination_by ts _ => (d, 4, ts.length)

end



/-! ## Fold descriptions of the unpruned traversal -/

/-- The maximum over a move list of the unpruned chance-layer values. -/
def movesTrueMax (ops : GridOps) (d : ℕ) (ms : List (Move × Board)) :
    UtilityValue :=
  (ms.map (fun mc => (minimizeFull ops d mc.2).1)).foldr max ⊥

/-- The minimum over a tile list of the unpruned maximizing-layer values. -/
def tilesTrueMin (ops : GridOps) (d : ℕ) (g : Board) (c : Cell)
    (ts : List (ℕ × ℚ)) : UtilityValue :=
  (ts.map (fun tv => (maximizeFull ops d (setCellValue g c tv.1)).1)).foldr min ⊤

/-- The minimum over a cell list of the per-cell tile minima. -/
def cellsTrueMin (ops : GridOps) (d : ℕ) (g : Board) (cs : List Cell) :
    UtilityValue :=
  (cs.map (fun c => tilesTrueMin ops d g c possibleTileProbabilities)).foldr min ⊤

/-! ## The search core with the wall-clock timeout

The faithful timed embedding: `clk n` is the value returned by the `n`-th
call to `time.time()` (the tick counter `t` is threaded through the search),
`start` is `moveStartTime`, and a raised `TimeoutError` is the `Except.error`
outcome.  Every non-terminal node reads the clock once, after the terminal
test, exactly as in the source. -/

mutual

/-- `maximize(grid, alpha, beta, depth, moveStartTime)` with the timeout. -/
def maximizeT (ops : GridOps) (clk : ℕ → ℚ) (start : ℚ) :
    ℕ → Board → UtilityValue → UtilityValue → ℕ →
    Except Unit ((UtilityValue × Option Move) × ℕ)
  | depth, g, alpha, beta, t =>
    if h : depth = 0 ∨ ops.canMove g = false then
      .ok ((uval (evaluate ops g), none), t)
    else if playerMoveTimeLimit ≤ clk t - start then .error ()
    else maximizeLoopT ops clk start (depth - 1) (ops.moves g) alpha beta ⊥ none (t + 1)
termination_by d _ _ _ _ => (d, 2, 0)
decreasing_by omega

/-- The move loop of `maximize`, with the timeout propagating. -/
def maximizeLoopT (ops : GridOps) (clk : ℕ → ℚ) (start : ℚ) (d : ℕ) :
    List (Move × Board) → UtilityValue → UtilityValue → UtilityValue →
    Option Move → ℕ → Except Unit ((UtilityValue × Option Move) × ℕ)
  | [], _, _, acc, best, t => .ok ((acc, best), t)
  | (move, child) :: rest, alpha, beta, acc, best, t =>
    match chanceT ops clk start d child alpha beta t with
    | .error e => .error e
    | .ok ((u, _), t2) =>
      let s := if acc < u then (u, some move) else (acc, best)
      let alpha2 := max alpha u
      if beta ≤ alpha2 then .ok (s, t2)
      else maximizeLoopT ops clk start d rest alpha2 beta s.1 s.2 t2
termination_by ms _ _ _ _ _ => (d, 5, ms.length)

/-- `chance`, timed. -/
def chanceT (ops : GridOps) (clk : ℕ → ℚ) (start : ℚ) (d : ℕ) (g : Board)
    (alpha beta : UtilityValue) (t : ℕ) :
    Except Unit ((UtilityValue × Option Move) × ℕ) :=
  minimizeT ops clk start d g alpha beta t
termination_by (d, 4, 0)

/-- `minimize(grid, alpha, beta, depth, moveStartTime)` with the timeout. -/
def minimizeT (ops : GridOps) (clk : ℕ → ℚ) (start : ℚ) :
    ℕ → Board → UtilityValue → UtilityValue → ℕ →
    Except Unit ((UtilityValue × Option Move) × ℕ)
  | depth, g, alpha, beta, t =>
    if _h : depth = 0 ∨ ops.canMove g = false then
      .ok ((uval (evaluate ops g), none), t)
    else if playerMoveTimeLimit ≤ clk t - start then .error ()
    else
      match minimizeCellsT ops clk start (depth - 1) g (rankCells ops g)
          alpha beta ⊤ (t + 1) with
      | .error e => .error e
      | .ok (v, t2) => .ok ((v, none), t2)
termination_by d _ _ _ _ => (d, 3, 0)
decreasing_by omega

/-- The outer cell loop of `minimize`, timed. -/
def minimizeCellsT (ops : GridOps) (clk : ℕ → ℚ) (start : ℚ) (d : ℕ)
    (g : Board) : List Cell → UtilityValue → UtilityValue → UtilityValue →
    ℕ → Except Unit (UtilityValue × ℕ)
  | [], _, _, acc, t => .ok (acc, t)
  | c :: rest, alpha, beta, acc, t =>
    match minimizeTilesT ops clk start d g c possibleTileProbabilities
        alpha beta acc t with
    | .error e => .error e
    | .ok ((acc2, beta2), t2) =>
      if beta2 ≤ alpha then .ok (acc2, t2)
      else minimizeCellsT ops clk start d g rest alpha beta2 acc2 t2
termination_by cs _ _ _ _ => (d, 5, cs.length)

/-- The inner tile loop of `minimize`, timed. -/
def minimizeTilesT (ops : GridOps) (clk : ℕ → ℚ) (start : ℚ) (d : ℕ)
    (g : Board) (c : Cell) : List (ℕ × ℚ) → UtilityValue → UtilityValue →
    UtilityValue → ℕ → Except Unit ((UtilityValue × UtilityValue) × ℕ)
  | [], _, beta, acc, t => .ok ((acc, beta), t)
  | (tileValue, _) :: rest, alpha, beta, acc, t =>
    match maximizeT ops clk start d (setCellValue g c tileValue)
        alpha beta t with
    | .error e => .error e
    | .ok ((u, _), t2) =>
      let acc2 := min acc u
      let beta2 := min beta u
      if beta2 ≤ alpha then .ok ((acc2, beta2), t2)
      else minimizeTilesT ops clk start d g c rest alpha beta2 acc2 t2
termination_by ts _ _ _ _ => (d, 4, ts.length)

end

/-- The `while` loop of `getMove`: each iteration reads the clock for the
loop condition, runs one full-depth search, keeps the returned move when it
is not `None`, and breaks on `TimeoutError`.  `fuel` bounds the number of
iterations so the model is total; the claims about `getMove` hold for every
fuel. -/
def getMoveLoop (ops : GridOps) (clk : ℕ → ℚ) (start : ℚ) (g : Board) :
    ℕ → ℕ → Option Move → ℕ → Option Move
  | 0, _, best, _ => best
  | fuel + 1, depth, best, t =>
    if clk t - start < playerMoveTimeLimit then
      match maximizeT ops clk start depth g ⊥ ⊤ (t + 1) with
      | .error _ => best
      | .ok ((_, move), t2) =>
        getMoveLoop ops clk start g fuel (depth + 1)
          (match move with | none => best | some m => some m) t2
    else best

/-- `getMove(grid)`: record `moveStartTime` (the 0-th clock reading), then
iteratively deepen from depth 1. -/
def getMove (ops : GridOps) (clk : ℕ → ℚ) (fuel : ℕ) (g : Board) :
    Option Move :=
  getMoveLoop ops clk (clk 0) g fuel 1 none 1

/-! ## The store-passing embedding

Python grids are heap objects mutated in place; `getMove` must leave the
caller's grid untouched.  To state that, boards live in a `Store` of
allocated objects: `clone()` and the successor boards of
`getAvailableMoves()` allocate fresh ids, `setCellValue` writes in place,
and the search threads the store (and the clock) exactly as the source
threads its object graph.  A raised `TimeoutError` carries the store so the
caller's view after the exception can be stated. -/

/-- A heap of allocated boards: ids below `next` are live. -/
structure Store where
  next : ℕ
  mem : ℕ → Board

/-- Allocate a fresh board object (`clone()` / a successor board). -/
def alloc (s : Store) (b : Board) : ℕ × Store :=
  (s.next, ⟨s.next + 1, fun k => if k = s.next then b else s.mem k⟩)

/-- In-place mutation of the object `i` (`setCellValue` on a grid). -/
def writeStore (s : Store) (i : ℕ) (b : Board) : Store :=
  ⟨s.next, fun k => if k = i then b else s.mem k⟩

/-- `getAvailableMoves()` hands back freshly allocated successor boards. -/
def allocMoves (s : Store) : List (Move × Board) → List (Move × ℕ) × Store
  | [] => ([], s)
  | (m, b) :: rest =>
    let a := alloc s b
    let pr := allocMoves a.2 rest
    ((m, a.1) :: pr.1, pr.2)

/-- The store a search call leaves behind, on either outcome. -/
def exceptStore {A : Type} : Except (ℕ × Store) (A × ℕ × Store) → Store
  | .error e => e.2
  | .ok r => r.2.2

mutual

/-- `maximize`, store-passing: the grid argument is an object id. -/
def maximizeS (ops : GridOps) (clk : ℕ → ℚ) (start : ℚ) :
    ℕ → ℕ → UtilityValue → UtilityValue → ℕ → Store →
    Except (ℕ × Store) ((UtilityValue × Option Move) × ℕ × Store)
  | depth, i, alpha, beta, t, s =>
    if h : depth = 0 ∨ ops.canMove (s.mem i) = false then
      .ok ((uval (evaluate ops (s.mem i)), none), t, s)
    else if playerMoveTimeLimit ≤ clk t - start then .error (t, s)
    else
      let ms := allocMoves s (ops.moves (s.mem i))
      maximizeLoopS ops clk start (depth - 1) ms.1 alpha beta ⊥ none
        (t + 1) ms.2
termination_by d _ _ _ _ _ => (d, 2, 0)
decreasing_by omega

/-- The move loop of `maximize`, store-passing. -/
def maximizeLoopS (ops : GridOps) (clk : ℕ → ℚ) (start : ℚ) (d : ℕ) :
    List (Move × ℕ) → UtilityValue → UtilityValue → UtilityValue →
    Option Move → ℕ → Store →
    Except (ℕ × Store) ((UtilityValue × Option Move) × ℕ × Store)
  | [], _, _, acc, best, t, s => .ok ((acc, best), t, s)
  | (move, j) :: rest, alpha, beta, acc, best, t, s =>
    match chanceS ops clk start d j alpha beta t s with
    | .error e => .error e
    | .ok ((u, _), t2, s2) =>
      let pr := if acc < u then (u, some move) else (acc, best)
      let alpha2 := max alpha u
      if beta ≤ alpha2 then .ok (pr, t2, s2)
      else maximizeLoopS ops clk start d rest alpha2 beta pr.1 pr.2 t2 s2
termination_by ms _ _ _ _ _ _ => (d, 5, ms.length)

/-- `chance`, store-passing. -/
def chanceS (ops : GridOps) (clk : ℕ → ℚ) (start : ℚ) (d : ℕ) (i : ℕ)
    (alpha beta : UtilityValue) (t : ℕ) (s : Store) :
    Except (ℕ × Store) ((UtilityValue × Option Move) × ℕ × Store) :=
  minimizeS ops clk start d i alpha beta t s
termination_by (d, 4, 0)

/-- `minimize`, store-passing. -/
def minimizeS (ops : GridOps) (clk : ℕ → ℚ) (start : ℚ) :
    ℕ → ℕ → UtilityValue → UtilityValue → ℕ → Store →
    Except (ℕ × Store) ((UtilityValue × Option Move) × ℕ × Store)
  | depth, i, alpha, beta, t, s =>
    if _h : depth = 0 ∨ ops.canMove (s.mem i) = false then
      .ok ((uval (evaluate ops (s.mem i)), none), t, s)
    else if playerMoveTimeLimit ≤ clk t - start then .error (t, s)
    else
      match minimizeCellsS ops clk start (depth - 1) i
          (rankCells ops (s.mem i)) alpha beta ⊤ (t + 1) s with
      | .error e => .error e
      | .ok (v, t2, s2) => .ok ((v, none), t2, s2)
termination_by d _ _ _ _ _ => (d, 3, 0)
decreasing_by omega

/-- The cell loop of `minimize`, store-passing. -/
def minimizeCellsS (ops : GridOps) (clk : ℕ → ℚ) (start : ℚ) (d : ℕ)
    (i : ℕ) : List Cell → UtilityValue → UtilityValue → UtilityValue →
    ℕ → Store → Except (ℕ × Store) (UtilityValue × ℕ × Store)
  | [], _, _, acc, t, s => .ok (acc, t, s)
  | c :: rest, alpha, beta, acc, t, s =>
    match minimizeTilesS ops clk start d i c possibleTileProbabilities
        alpha beta acc t s with
    | .error e => .error e
    | .ok ((acc2, beta2), t2, s2) =>
      if beta2 ≤ alpha then .ok (acc2, t2, s2)
      else minimizeCellsS ops clk start d i rest alpha beta2 acc2 t2 s2
termination_by cs _ _ _ _ _ => (d, 5, cs.length)

/-- The tile loop of `minimize`, store-passing: `child = grid.clone()` then
`child.setCellValue(cell, tileValue)`, always on the fresh id. -/
def minimizeTilesS (ops : GridOps) (clk : ℕ → ℚ) (start : ℚ) (d : ℕ)
    (i : ℕ) (c : Cell) : List (ℕ × ℚ) → UtilityValue → UtilityValue →
    UtilityValue → ℕ → Store →
    Except (ℕ × Store) ((UtilityValue × UtilityValue) × ℕ × Store)
  | [], _, beta, acc, t, s => .ok ((acc, beta), t, s)
  | (tileValue, _) :: rest, alpha, beta, acc, t, s =>
    let a := alloc s (s.mem i)
    let s1 := writeStore a.2 a.1 (setCellValue (a.2.mem a.1) c tileValue)
    match maximizeS ops clk start d a.1 alpha beta t s1 with
    | .error e => .error e
    | .ok ((u, _), t2, s2) =>
      let acc2 := min acc u
      let beta2 := min beta u
      if beta2 ≤ alpha then .ok ((acc2, beta2), t2, s2)
      else minimizeTilesS ops clk start d i c rest alpha beta2 acc2 t2 s2
termination_by ts _ _ _ _ _ => (d, 4, ts.length)

end

/-- The `while` loop of `getMove`, store-passing: a caught `TimeoutError`
leaves the caller with the store as the raise left it. -/
def getMoveLoopS (ops : GridOps) (clk : ℕ → ℚ) (start : ℚ) (i : ℕ) :
    ℕ → ℕ → Option Move → ℕ → Store → Option Move × Store
  | 0, _, best, _, s => (best, s)
  | fuel + 1, depth, best, t, s =>
    if clk t - start < playerMoveTimeLimit then
      match maximizeS ops clk start depth i ⊥ ⊤ (t + 1) s with
      | .error e => (best, e.2)
      | .ok ((_, move), t2, s2) =>
        getMoveLoopS ops clk start i fuel (depth + 1)
          (match move with | none => best | some m => some m) t2 s2
    else (best, s)

/-- `getMove(grid)`, store-passing: the caller's grid is the object `i`. -/
def getMoveS (ops : GridOps) (clk : ℕ → ℚ) (fuel : ℕ) (i : ℕ) (s : Store) :
    Option Move × Store :=
  getMoveLoopS ops clk (clk 0) i fuel 1 none 1 s

/-- `s2` preserves every object allocated in `s`: ids below `s.next` hold
identical boards. -/
def storePreserved (s s2 : Store) : Prop :=
  s.next ≤ s2.next ∧ ∀ k, k < s.next → s2.mem k = s.mem k

/-! ## Concrete collaborator fixtures

Small executable `GridOps` instantiations used to evaluate the theorems on
concrete inputs. -/

/-- All 16 cells in row-major order. -/
def allCells : List Cell :=
  ((List.finRange 4).map (fun x => (List.finRange 4).map (fun y => (x, y)))).flatten

/-- A contract-respecting `getAvailableCells()`: empty cells in row-major
order. -/
def stdCells (g : Board) : List Cell :=
  allCells.filter (fun c => decide (g c.1 c.2 = 0))

/-- A minimal collaborator with no legal moves anywhere. -/
def noMoveOps : GridOps :=
  { moves := fun _ => [], canMove := fun _ => false, cells := stdCells }

/-- Like `noMoveOps` but enumerating the empty cells in the reverse order. -/
def revCellOps : GridOps :=
  { moves := fun _ => [], canMove := fun _ => false,
    cells := fun g => (stdCells g).reverse }

/-- A collaborator where every board has one legal move leaving the board
unchanged; used to exercise non-terminal nodes on concrete inputs. -/
def loopOps : GridOps :=
  { moves := fun g => [(Move.up, g)], canMove := fun _ => true,
    cells := stdCells }

/-- A collaborator where every board has two legal moves, both leaving the
board unchanged — their chance-layer utilities therefore tie. -/
def tieOps : GridOps :=
  { moves := fun g => [(Move.up, g), (Move.down, g)],
    canMove := fun _ => true, cells := stdCells }

/-! ## Theorems -/

/-- Folding `Nat.max` is bounded by `b` iff the seed and every element are. -/
lemma foldl_nat_max_le_iff (l : List ℕ) (a b : ℕ) :
    l.foldl Nat.max a ≤ b ↔ a ≤ b ∧ ∀ x ∈ l, x ≤ b := by
  induction l generalizing a with
  | nil => simp
  | cons x t ih =>
    simp only [List.foldl_cons, ih, Nat.max_le, List.mem_cons]
    constructor
    · rintro ⟨⟨ha, hx⟩, ht⟩
      exact ⟨ha, fun y hy => by rcases hy with rfl | hy; exact hx; exact ht y hy⟩
    · rintro ⟨ha, h⟩
      exact ⟨⟨ha, h x (Or.inl rfl)⟩, fun y hy => h y (Or.inr hy)⟩

/-- Membership in the row-major flattening. -/
lemma mem_rowMajor {g : Board} {a : ℕ} :
    a ∈ rowMajor g ↔ ∃ c : Cell, g c.1 c.2 = a := by
  constructor
  · intro hx
    simp only [rowMajor, List.mem_flatten, List.mem_map, List.mem_finRange,
      true_and] at hx
    obtain ⟨l, ⟨x, rfl⟩, hl⟩ := hx
    simp only [List.mem_map, List.mem_finRange, true_and] at hl
    obtain ⟨y, rfl⟩ := hl
    exact ⟨(x, y), rfl⟩
  · rintro ⟨⟨x, y⟩, rfl⟩
    simp only [rowMajor, List.mem_flatten]
    exact ⟨(List.finRange 4).map (fun y => g x y),
      List.mem_map_of_mem _ (List.mem_finRange x),
      List.mem_map_of_mem _ (List.mem_finRange y)⟩

/-- The source's `max(cell for row in grid.map for cell in row)` computes the
board maximum. -/
lemma foldl_rowMajor_eq_boardMax (g : Board) :
    (rowMajor g).foldl Nat.max 0 = boardMax g := by
  apply le_antisymm
  · rw [foldl_nat_max_le_iff]
    refine ⟨Nat.zero_le _, fun x hx => ?_⟩
    obtain ⟨c, rfl⟩ := mem_rowMajor.mp hx
    unfold boardMax
    apply Finset.le_sup (Finset.mem_univ c)
  · refine Finset.sup_le fun c _ => ?_
    have hm : g c.1 c.2 ∈ rowMajor g := mem_rowMajor.mpr ⟨c, rfl⟩
    have := (foldl_nat_max_le_iff (rowMajor g) 0 ((rowMajor g).foldl Nat.max 0)).mp le_rfl
    exact this.2 _ hm

/-- The snake-adherence loop computes the spec's sum over all cells. -/
lemma calcSnakeAdherence_eq (g : Board) :
    (calcSnakeAdherence g : ℚ) = snakeSub g := by
  unfold calcSnakeAdherence snakeSub
  rw [Fintype.sum_prod_type]
  rw [show List.finRange 4 = ([0, 1, 2, 3] : List (Fin 4)) from rfl]
  simp only [List.foldl_cons, List.foldl_nil, Fin.sum_univ_four]
  push_cast
  ring

/-- The smoothness loop computes the spec's negative sum of adjacent absolute
differences, each pair counted once. -/
lemma calcSmoothness_eq (g : Board) : calcSmoothness g = smoothSub g := by
  unfold calcSmoothness smoothSub
  rw [show List.finRange 4 = ([0, 1, 2, 3] : List (Fin 4)) from rfl]
  simp only [List.foldl_cons, List.foldl_nil,
    show ((0 : Fin 4) : ℕ) = 0 from rfl, show ((1 : Fin 4) : ℕ) = 1 from rfl,
    show ((2 : Fin 4) : ℕ) = 2 from rfl, show ((3 : Fin 4) : ℕ) = 3 from rfl]
  norm_num
  simp only [show ∀ h : (1 : ℕ) < 4, (⟨1, h⟩ : Fin 4) = 1 from fun _ => rfl,
    show ∀ h : (2 : ℕ) < 4, (⟨2, h⟩ : Fin 4) = 2 from fun _ => rfl,
    show ∀ h : (3 : ℕ) < 4, (⟨3, h⟩ : Fin 4) = 3 from fun _ => rfl,
    Fin.sum_univ_four, Fin.sum_univ_three,
    show ((0 : Fin 3).castSucc : Fin 4) = 0 from rfl,
    show ((1 : Fin 3).castSucc : Fin 4) = 1 from rfl,
    show ((2 : Fin 3).castSucc : Fin 4) = 2 from rfl,
    show ((0 : Fin 3).succ : Fin 4) = 1 from rfl,
    show ((1 : Fin 3).succ : Fin 4) = 2 from rfl,
    show ((2 : Fin 3).succ : Fin 4) = 3 from rfl]
  ring

/-- `len(grid.getAvailableCells())` counts the zero-valued cells, given the
cell-listing contract at this board. -/
lemma getEmptyCells_eq {ops : GridOps} {g : Board}
    (hnd : (ops.cells g).Nodup)
    (hmem : ∀ c : Cell, c ∈ ops.cells g ↔ g c.1 c.2 = 0) :
    getEmptyCells ops g = emptySub g := by
  unfold getEmptyCells emptySub
  rw [← List.toFinset_card_of_nodup hnd]
  congr 1
  apply Finset.ext
  intro c
  simp [hmem c]

/-- The corner heuristic computes the spec's corner bonus. -/
lemma checkMaxTileInCorner_eq (g : Board) :
    checkMaxTileInCorner g = cornerSub g := by
  simp only [checkMaxTileInCorner, cornerSub, foldl_rowMajor_eq_boardMax]


/-- **C5**: for every board, the max-tile-in-corner sub-score equals the
board's maximum tile value when the cell at (row 0, col 0) holds a tile equal
to that maximum, and otherwise equals the negated absolute difference between
the maximum tile value and the value at (0,0). -/
theorem claim_C5_corner_heuristic (g : Board) :
    (g 0 0 = boardMax g → checkMaxTileInCorner g = (boardMax g : ℤ)) ∧
    (g 0 0 ≠ boardMax g →
      checkMaxTileInCorner g = -|(boardMax g : ℤ) - (g 0 0 : ℤ)|) := by
  rw [checkMaxTileInCorner_eq]
  unfold cornerSub
  constructor
  · intro h
    rw [if_pos h]
  · intro h
    rw [if_neg h]

/-- `claim_C5_corner_heuristic` evaluated on concrete boards: one with the
maximum at the corner, one with it elsewhere. -/
theorem claim_C5_corner_heuristic_witness :
    ((fun _ _ => (2 : ℕ)) : Board) 0 0 = boardMax (fun _ _ => (2 : ℕ)) ∧
    checkMaxTileInCorner (fun _ _ => (2 : ℕ)) =
      (boardMax (fun _ _ => (2 : ℕ)) : ℤ) ∧
    ((fun x _ => if x = 3 then 8 else (0 : ℕ)) : Board) 0 0 ≠
      boardMax (fun x _ => if x = 3 then 8 else (0 : ℕ)) ∧
    checkMaxTileInCorner (fun x _ => if x = 3 then 8 else (0 : ℕ)) =
      -|(boardMax (fun x _ => if x = 3 then 8 else (0 : ℕ)) : ℤ) -
        (((fun x _ => if x = 3 then 8 else (0 : ℕ)) : Board) 0 0 : ℤ)| :=
  ⟨by decide, (claim_C5_corner_heuristic _).1 (by decide), by decide,
    (claim_C5_corner_heuristic _).2 (by decide)⟩

/-- **C2**: for every board (with the cell-listing contract at that board),
`evaluate` equals exactly `w1·snake + w2·smoothness + w3·emptyCount +
w4·cornerBonus`, with the sub-scores as the spec describes them and the four
weights fixed positive constants. -/
theorem claim_C2_evaluate_formula (ops : GridOps) (g : Board)
    (hnd : (ops.cells g).Nodup)
    (hmem : ∀ c : Cell, c ∈ ops.cells g ↔ g c.1 c.2 = 0) :
    evaluate ops g =
      snakeWeight * snakeSub g + smoothnessWeight * smoothSub g +
        emptyCellsWeight * (emptySub g : ℚ) +
        maxInCornerWeight * (cornerSub g : ℚ) ∧
    0 < snakeWeight ∧ 0 < smoothnessWeight ∧ 0 < emptyCellsWeight ∧
      0 < maxInCornerWeight := by
  refine ⟨?_, by norm_num [snakeWeight], by norm_num [smoothnessWeight],
    by norm_num [emptyCellsWeight], by norm_num [maxInCornerWeight]⟩
  unfold evaluate
  rw [calcSnakeAdherence_eq, calcSmoothness_eq, getEmptyCells_eq hnd hmem,
    checkMaxTileInCorner_eq]

/-- `claim_C2_evaluate_formula` evaluated at a concrete board through the
row-major cell lister. -/
theorem claim_C2_evaluate_formula_witness :
    ((noMoveOps.cells (fun _ _ => (2 : ℕ))).Nodup ∧
      (∀ c : Cell, c ∈ noMoveOps.cells (fun _ _ => (2 : ℕ)) ↔
        ((fun _ _ => (2 : ℕ)) : Board) c.1 c.2 = 0)) ∧
    evaluate noMoveOps (fun _ _ => (2 : ℕ)) =
      snakeWeight * snakeSub (fun _ _ => (2 : ℕ)) +
        smoothnessWeight * smoothSub (fun _ _ => (2 : ℕ)) +
        emptyCellsWeight * (emptySub (fun _ _ => (2 : ℕ)) : ℚ) +
        maxInCornerWeight * (cornerSub (fun _ _ => (2 : ℕ)) : ℚ) :=
  ⟨⟨by decide, by decide⟩,
    (claim_C2_evaluate_formula noMoveOps _ (by decide) (by decide)).1⟩

/-- The snake importance key is injective on cells: all 16 table entries are
pairwise distinct. -/
lemma snakeImportance_injective :
    Function.Injective (fun c : Cell => snakeShapedWeights c.1 c.2) := by
  intro a b h
  have hnd : (allCells.map (fun c : Cell => snakeShapedWeights c.1 c.2)).Nodup := by
    decide
  have hmem : ∀ c : Cell, c ∈ allCells := by decide
  exact List.inj_on_of_nodup_map hnd (hmem a) (hmem b) h

/-- The descending-importance comparator used by `rankCells` is transitive. -/
lemma rankLe_trans (g : Board) : ∀ a b c : Cell,
    (fun a b => decide (getCellSnakeImportance g b ≤ getCellSnakeImportance g a)) a b = true →
    (fun a b => decide (getCellSnakeImportance g b ≤ getCellSnakeImportance g a)) b c = true →
    (fun a b => decide (getCellSnakeImportance g b ≤ getCellSnakeImportance g a)) a c = true := by
  intro a b c h1 h2
  simp only [decide_eq_true_eq] at *
  exact le_trans h2 h1

/-- The descending-importance comparator used by `rankCells` is total. -/
lemma rankLe_total (g : Board) : ∀ a b : Cell,
    ((fun a b => decide (getCellSnakeImportance g b ≤ getCellSnakeImportance g a)) a b ||
     (fun a b => decide (getCellSnakeImportance g b ≤ getCellSnakeImportance g a)) b a) = true := by
  intro a b
  simp only [Bool.or_eq_true, decide_eq_true_eq]
  exact (le_total (getCellSnakeImportance g b) (getCellSnakeImportance g a))

/-- The sorted cell list is weakly descending in importance. -/
lemma mergeSort_pairwise_ge (ops : GridOps) (g : Board) :
    ((ops.cells g).mergeSort
      (fun a b => decide (getCellSnakeImportance g b ≤ getCellSnakeImportance g a))).Pairwise
      (fun a b => getCellSnakeImportance g b ≤ getCellSnakeImportance g a) := by
  have h := List.sorted_mergeSort (rankLe_trans g) (rankLe_total g)
    (ops.cells g)
  exact h.imp (fun hab => by simpa using hab)

/-- **C10**: the 16 snake-table entries are the pairwise-distinct powers
`4^0 .. 4^15`, and consequently the ranked cell list — hence the top-4 cell
selection of the chance layer — is the same for every enumeration order the
collaborator's `getAvailableCells()` may produce. -/
theorem claim_C10_snake_weights_distinct :
    (allCells.map (fun c : Cell => snakeShapedWeights c.1 c.2)).Nodup ∧
    (allCells.map (fun c : Cell => snakeShapedWeights c.1 c.2)).Perm
      ((List.range 16).map (fun i => 4 ^ i)) ∧
    ∀ (opsA opsB : GridOps) (g : Board),
      (opsA.cells g).Perm (opsB.cells g) → rankCells opsA g = rankCells opsB g := by
  refine ⟨by decide, by decide, fun opsA opsB g hperm => ?_⟩
  unfold rankCells
  congr 1
  haveI : IsAntisymm Cell
      (fun a b => getCellSnakeImportance g b ≤ getCellSnakeImportance g a) :=
    ⟨fun a b h1 h2 => snakeImportance_injective (le_antisymm h2 h1)⟩
  refine List.eq_of_perm_of_sorted ?_ (mergeSort_pairwise_ge opsA g)
    (mergeSort_pairwise_ge opsB g)
  exact ((List.mergeSort_perm _ _).trans hperm).trans (List.mergeSort_perm _ _).symm

/-- `claim_C10_snake_weights_distinct` applied to the row-major and reversed
cell enumerations of a concrete board with more than four empty cells. -/
theorem claim_C10_snake_weights_distinct_witness :
    (noMoveOps.cells (fun _ _ => (0 : ℕ))).Perm
      (revCellOps.cells (fun _ _ => (0 : ℕ))) ∧
    rankCells noMoveOps (fun _ _ => (0 : ℕ)) =
      rankCells revCellOps (fun _ _ => (0 : ℕ)) :=
  ⟨by decide,
    claim_C10_snake_weights_distinct.2.2 noMoveOps revCellOps _ (by decide)⟩

/-- The ranked cell list is strictly descending in snake importance when the
input cell list has no duplicates. -/
lemma rankCells_pairwise_lt (ops : GridOps) (g : Board)
    (hnd : (ops.cells g).Nodup) :
    ((ops.cells g).mergeSort
      (fun a b => decide (getCellSnakeImportance g b ≤ getCellSnakeImportance g a))).Pairwise
      (fun a b => getCellSnakeImportance g b < getCellSnakeImportance g a) := by
  have hpw := mergeSort_pairwise_ge ops g
  have hnd2 : ((ops.cells g).mergeSort
      (fun a b => decide (getCellSnakeImportance g b ≤ getCellSnakeImportance g a))).Nodup :=
    ((List.mergeSort_perm _ _).nodup_iff).mpr hnd
  refine (hpw.and hnd2).imp ?_
  rintro a b ⟨hle, hne⟩
  refine lt_of_le_of_ne hle (fun heq => hne ?_)
  have hba : b = a :=
    snakeImportance_injective (by simpa [getCellSnakeImportance] using heq)
  exact hba.symm

/-- **C3**: at the chance layer the expanded cells are `rankCells`; given the
cell-listing contract at this board, they are all the empty cells when there
are at most 4, and otherwise exactly the 4 empty cells of highest snake
weight; they are enumerated in strictly descending weight order; and the
selection depends only on cell coordinates, never on cell contents. -/
theorem claim_C3_top4_cell_selection (ops : GridOps) (g : Board)
    (hnd : (ops.cells g).Nodup)
    (hmem : ∀ c : Cell, c ∈ ops.cells g ↔ g c.1 c.2 = 0) :
    ((ops.cells g).length ≤ 4 →
      (rankCells ops g).Perm (ops.cells g) ∧
      (∀ c : Cell, c ∈ rankCells ops g ↔ g c.1 c.2 = 0)) ∧
    (4 < (ops.cells g).length →
      (rankCells ops g).length = 4 ∧
      (∀ c ∈ rankCells ops g, g c.1 c.2 = 0) ∧
      (∀ c ∈ rankCells ops g, ∀ c' : Cell, g c'.1 c'.2 = 0 →
        c' ∉ rankCells ops g →
        getCellSnakeImportance g c' < getCellSnakeImportance g c)) ∧
    (rankCells ops g).Pairwise
      (fun a b => getCellSnakeImportance g b < getCellSnakeImportance g a) ∧
    (∀ gB : Board, ops.cells gB = ops.cells g → rankCells ops gB = rankCells ops g) := by
  set le := fun a b : Cell =>
    decide (getCellSnakeImportance g b ≤ getCellSnakeImportance g a) with hle
  have hperm : ((ops.cells g).mergeSort le).Perm (ops.cells g) :=
    List.mergeSort_perm _ _
  have hstrict := rankCells_pairwise_lt ops g hnd
  have hrank : rankCells ops g = ((ops.cells g).mergeSort le).take 4 := rfl
  refine ⟨?_, ?_, ?_, ?_⟩
  · intro hlen
    have hall : ((ops.cells g).mergeSort le).take 4 = (ops.cells g).mergeSort le :=
      List.take_of_length_le (by rw [hperm.length_eq]; exact hlen)
    have hp : (rankCells ops g).Perm (ops.cells g) := by
      rw [hrank, hall]; exact hperm
    exact ⟨hp, fun c => by rw [hp.mem_iff]; exact hmem c⟩
  · intro hlen
    have hlen2 : (rankCells ops g).length = 4 := by
      rw [hrank, List.length_take, hperm.length_eq]
      exact min_eq_left (le_of_lt hlen)
    have hsubmem : ∀ c ∈ rankCells ops g, c ∈ ops.cells g := fun c hc =>
      hperm.subset (List.take_subset _ _ (hrank ▸ hc))
    refine ⟨hlen2, fun c hc => (hmem c).mp (hsubmem c hc), ?_⟩
    intro c hc cB hB hnB
    have hBs : cB ∈ (ops.cells g).mergeSort le :=
      hperm.mem_iff.mpr ((hmem cB).mpr hB)
    have hsplit := List.take_append_drop 4 ((ops.cells g).mergeSort le)
    have hBdrop : cB ∈ ((ops.cells g).mergeSort le).drop 4 := by
      rcases (List.mem_append.mp (by rw [hsplit]; exact hBs)) with h | h
      · exact absurd (hrank ▸ h) hnB
      · exact h
    have hpw2 : (((ops.cells g).mergeSort le).take 4 ++
        ((ops.cells g).mergeSort le).drop 4).Pairwise
        (fun a b => getCellSnakeImportance g b < getCellSnakeImportance g a) := by
      rw [hsplit]; exact hstrict
    exact (List.pairwise_append.mp hpw2).2.2 c (hrank ▸ hc) cB hBdrop
  · exact hstrict.sublist (hrank ▸ List.take_sublist _ _)
  · intro gB hcells
    simp only [rankCells, getCellSnakeImportance, hcells]

/-- `claim_C3_top4_cell_selection` evaluated on a concrete board with three
empty cells (and, through the all-empty board, on the over-4 branch). -/
theorem claim_C3_top4_cell_selection_witness :
    ((noMoveOps.cells (fun _ y => if (y : ℕ) = 0 then 0 else 2)).Nodup ∧
      (∀ c : Cell, c ∈ noMoveOps.cells (fun _ y => if (y : ℕ) = 0 then 0 else 2) ↔
        (if (c.2 : ℕ) = 0 then 0 else 2) = 0)) ∧
    ((noMoveOps.cells (fun _ y => if (y : ℕ) = 0 then 0 else 2)).length ≤ 4 ∧
      (rankCells noMoveOps (fun _ y => if (y : ℕ) = 0 then 0 else 2)).Perm
        (noMoveOps.cells (fun _ y => if (y : ℕ) = 0 then 0 else 2))) :=
  ⟨⟨by decide, by decide⟩,
    ⟨by decide,
      ((claim_C3_top4_cell_selection noMoveOps _ (by decide) (by decide)).1
        (by decide)).1⟩⟩

/-- **C4**: at a terminal node — remaining depth 0 or no legal move — the
maximizing layer returns `(evaluate(board), null)` for every alpha-beta
window, and (in the timed embedding) does so without reading the clock and
without error, for every clock state. -/
theorem claim_C4_terminal_maximize (ops : GridOps) (g : Board)
    (alpha beta : UtilityValue) (depth : ℕ)
    (h : depth = 0 ∨ ops.canMove g = false) :
    maximize ops depth g alpha beta = (uval (evaluate ops g), none) ∧
    ∀ (clk : ℕ → ℚ) (start : ℚ) (t : ℕ),
      maximizeT ops clk start depth g alpha beta t =
        .ok ((uval (evaluate ops g), none), t) := by
  constructor
  · rw [maximize]
    exact dif_pos h
  · intro clk start t
    rw [maximizeT]
    exact dif_pos h

/-- `claim_C4_terminal_maximize` on a full board with no legal moves, at
depth 3, under a clock that is already far past the budget. -/
theorem claim_C4_terminal_maximize_witness :
    ((3 : ℕ) = 0 ∨ noMoveOps.canMove (fun _ _ => (2 : ℕ)) = false) ∧
    maximize noMoveOps 3 (fun _ _ => (2 : ℕ)) ⊥ ⊤ =
      (uval (evaluate noMoveOps (fun _ _ => (2 : ℕ))), none) ∧
    maximizeT noMoveOps (fun _ => (5 : ℚ)) 0 3 (fun _ _ => (2 : ℕ)) ⊥ ⊤ 7 =
      .ok ((uval (evaluate noMoveOps (fun _ _ => (2 : ℕ))), none), 7) :=
  ⟨Or.inr (by decide),
    (claim_C4_terminal_maximize noMoveOps _ ⊥ ⊤ 3 (Or.inr (by decide))).1,
    (claim_C4_terminal_maximize noMoveOps _ ⊥ ⊤ 3 (Or.inr (by decide))).2
      (fun _ => (5 : ℚ)) 0 7⟩

/-- If the chance layer at depth `d` always succeeds, the move loop always
succeeds. -/
lemma maximizeLoopT_ok (ops : GridOps) (clk : ℕ → ℚ) (start : ℚ) (d : ℕ)
    (hmin : ∀ g alpha beta t,
      ∃ r, minimizeT ops clk start d g alpha beta t = .ok r) :
    ∀ (ms : List (Move × Board)) alpha beta acc best t,
      ∃ r, maximizeLoopT ops clk start d ms alpha beta acc best t = .ok r := by
  intro ms
  induction ms with
  | nil => intro alpha beta acc best t; exact ⟨_, by rw [maximizeLoopT]⟩
  | cons mc rest ih =>
    intro alpha beta acc best t
    obtain ⟨move, child⟩ := mc
    obtain ⟨⟨⟨u, m⟩, t2⟩, hr⟩ := hmin child alpha beta t
    rw [maximizeLoopT, chanceT, hr]
    dsimp only
    split
    · exact ⟨_, rfl⟩
    · exact ih _ _ _ _ _

/-- If the maximizing layer at depth `d` always succeeds, the tile loop
always succeeds. -/
lemma minimizeTilesT_ok (ops : GridOps) (clk : ℕ → ℚ) (start : ℚ) (d : ℕ)
    (hmax : ∀ g alpha beta t,
      ∃ r, maximizeT ops clk start d g alpha beta t = .ok r) :
    ∀ (ts : List (ℕ × ℚ)) g c alpha beta acc t,
      ∃ r, minimizeTilesT ops clk start d g c ts alpha beta acc t = .ok r := by
  intro ts
  induction ts with
  | nil => intro g c alpha beta acc t; exact ⟨_, by rw [minimizeTilesT]⟩
  | cons tv rest ih =>
    intro g c alpha beta acc t
    obtain ⟨tileValue, p⟩ := tv
    obtain ⟨⟨⟨u, m⟩, t2⟩, hr⟩ := hmax (setCellValue g c tileValue) alpha beta t
    rw [minimizeTilesT, hr]
    dsimp only
    split
    · exact ⟨_, rfl⟩
    · exact ih _ _ _ _ _ _

/-- If the maximizing layer at depth `d` always succeeds, the cell loop
always succeeds. -/
lemma minimizeCellsT_ok (ops : GridOps) (clk : ℕ → ℚ) (start : ℚ) (d : ℕ)
    (hmax : ∀ g alpha beta t,
      ∃ r, maximizeT ops clk start d g alpha beta t = .ok r) :
    ∀ (cs : List Cell) g alpha beta acc t,
      ∃ r, minimizeCellsT ops clk start d g cs alpha beta acc t = .ok r := by
  intro cs
  induction cs with
  | nil => intro g alpha beta acc t; exact ⟨_, by rw [minimizeCellsT]⟩
  | cons c rest ih =>
    intro g alpha beta acc t
    obtain ⟨⟨⟨acc2, beta2⟩, t2⟩, hr⟩ :=
      minimizeTilesT_ok ops clk start d hmax possibleTileProbabilities
        g c alpha beta acc t
    rw [minimizeCellsT, hr]
    dsimp only
    split
    · exact ⟨_, rfl⟩
    · exact ih _ _ _ _ _

/-- Under a clock that never reaches the budget, neither layer ever raises
the timeout. -/
lemma timed_ok_of_no_timeout (ops : GridOps) (clk : ℕ → ℚ) (start : ℚ)
    (hclk : ∀ s : ℕ, clk s - start < playerMoveTimeLimit) :
    ∀ (d : ℕ) (g : Board) (alpha beta : UtilityValue) (t : ℕ),
      (∃ r, maximizeT ops clk start d g alpha beta t = .ok r) ∧
      (∃ r, minimizeT ops clk start d g alpha beta t = .ok r) := by
  intro d
  induction d using Nat.strong_induction_on with
  | _ d ih =>
    intro g alpha beta t
    constructor
    · rw [maximizeT]
      split
      · exact ⟨_, rfl⟩
      · rename_i hterm
        rw [if_neg (not_le.mpr (hclk t))]
        refine maximizeLoopT_ok ops clk start (d - 1) ?_ _ _ _ _ _ _
        intro gB alphaB betaB tB
        exact (ih (d - 1) (by omega) gB alphaB betaB tB).2
    · rw [minimizeT]
      split
      · exact ⟨_, rfl⟩
      · rename_i hterm
        rw [if_neg (not_le.mpr (hclk t))]
        obtain ⟨⟨v, t2⟩, hr⟩ :=
          minimizeCellsT_ok ops clk start (d - 1)
            (fun gB alphaB betaB tB => (ih (d - 1) (by omega) gB alphaB betaB tB).1)
            (rankCells ops g) g alpha beta ⊤ (t + 1)
        rw [hr]
        exact ⟨_, rfl⟩

/-- **C9**: the timeout is raised at a node exactly when the node is
non-terminal and the elapsed time has reached the budget: a terminal node
returns `(evaluate(board), null)` without consulting the clock (even with the
budget already exceeded); a non-terminal node raises when `elapsed ≥ budget`;
and under a clock that never reaches the budget no timeout is ever raised. -/
theorem claim_C9_terminal_before_clock (ops : GridOps) (clk : ℕ → ℚ)
    (start : ℚ) (g : Board) (alpha beta : UtilityValue) (t : ℕ) (depth : ℕ) :
    ((depth = 0 ∨ ops.canMove g = false) →
      maximizeT ops clk start depth g alpha beta t =
        .ok ((uval (evaluate ops g), none), t) ∧
      minimizeT ops clk start depth g alpha beta t =
        .ok ((uval (evaluate ops g), none), t)) ∧
    (¬(depth = 0 ∨ ops.canMove g = false) →
      playerMoveTimeLimit ≤ clk t - start →
      maximizeT ops clk start depth g alpha beta t = .error () ∧
      minimizeT ops clk start depth g alpha beta t = .error ()) ∧
    ((∀ s : ℕ, clk s - start < playerMoveTimeLimit) →
      (∃ r, maximizeT ops clk start depth g alpha beta t = .ok r) ∧
      (∃ r, minimizeT ops clk start depth g alpha beta t = .ok r)) := by
  refine ⟨fun h => ⟨?_, ?_⟩, fun h htime => ⟨?_, ?_⟩,
    fun hclk => timed_ok_of_no_timeout ops clk start hclk depth g alpha beta t⟩
  · rw [maximizeT]; exact dif_pos h
  · rw [minimizeT]; exact dif_pos h
  · rw [maximizeT, dif_neg h]; exact if_pos htime
  · rw [minimizeT, dif_neg h]
    rw [if_pos htime]

/-- `claim_C9_terminal_before_clock` on concrete inputs: a terminal board
returns its evaluation under an expired clock, and a non-terminal board
raises the timeout under the same clock. -/
theorem claim_C9_terminal_before_clock_witness :
    ((3 : ℕ) = 0 ∨ noMoveOps.canMove (fun _ _ => (2 : ℕ)) = false) ∧
    maximizeT noMoveOps (fun _ => (1 : ℚ)) 0 3 (fun _ _ => (2 : ℕ)) ⊥ ⊤ 0 =
      .ok ((uval (evaluate noMoveOps (fun _ _ => (2 : ℕ))), none), 0) ∧
    (¬((3 : ℕ) = 0 ∨ loopOps.canMove (fun _ _ => (2 : ℕ)) = false) ∧
      playerMoveTimeLimit ≤ (fun _ : ℕ => (1 : ℚ)) 0 - 0) ∧
    maximizeT loopOps (fun _ => (1 : ℚ)) 0 3 (fun _ _ => (2 : ℕ)) ⊥ ⊤ 0 =
      .error () :=
  ⟨Or.inr (by decide),
    ((claim_C9_terminal_before_clock noMoveOps (fun _ => 1) 0 _ ⊥ ⊤ 0 3).1
      (Or.inr (by decide))).1,
    ⟨by decide, by norm_num [playerMoveTimeLimit]⟩,
    ((claim_C9_terminal_before_clock loopOps (fun _ => 1) 0 _ ⊥ ⊤ 0 3).2.1
      (by decide) (by norm_num [playerMoveTimeLimit])).1⟩

/-- A finite utility is not `-∞`. -/
lemma uval_ne_bot (q : ℚ) : uval q ≠ ⊥ := WithBot.coe_ne_bot

/-- The minimum of two non-`-∞` utilities is not `-∞`. -/
lemma min_ne_bot {a b : UtilityValue} (ha : a ≠ ⊥) (hb : b ≠ ⊥) :
    min a b ≠ ⊥ := by
  rcases min_choice a b with h | h <;> rw [h] <;> assumption

/-- Tile-loop invariant: from a non-`-∞` accumulator, with all child values
non-`-∞`, the result stays non-`-∞`. -/
lemma minimizeTilesT_ne_bot (ops : GridOps) (clk : ℕ → ℚ) (start : ℚ) (d : ℕ)
    (hmax : ∀ g alpha beta t v m t2,
      maximizeT ops clk start d g alpha beta t = .ok ((v, m), t2) → v ≠ ⊥) :
    ∀ (ts : List (ℕ × ℚ)) g c alpha beta acc t v beta2 t2,
      minimizeTilesT ops clk start d g c ts alpha beta acc t =
        .ok ((v, beta2), t2) → acc ≠ ⊥ → v ≠ ⊥ := by
  intro ts
  induction ts with
  | nil =>
    intro g c alpha beta acc t v beta2 t2 hok hacc
    rw [minimizeTilesT] at hok
    injection hok with hok
    cases hok
    exact hacc
  | cons tv rest ih =>
    intro g c alpha beta acc t v beta2 t2 hok hacc
    obtain ⟨tileValue, p⟩ := tv
    rw [minimizeTilesT] at hok
    split at hok
    · exact absurd hok (by simp)
    · rename_i u mu tmid heq
      have hu : u ≠ ⊥ := hmax _ _ _ _ _ _ _ heq
      dsimp only at hok
      split at hok
      · injection hok with hok
        cases hok
        exact min_ne_bot hacc hu
      · exact ih _ _ _ _ _ _ _ _ _ hok (min_ne_bot hacc hu)

/-- Cell-loop invariant: as `minimizeTilesT_ne_bot`. -/
lemma minimizeCellsT_ne_bot (ops : GridOps) (clk : ℕ → ℚ) (start : ℚ) (d : ℕ)
    (hmax : ∀ g alpha beta t v m t2,
      maximizeT ops clk start d g alpha beta t = .ok ((v, m), t2) → v ≠ ⊥) :
    ∀ (cs : List Cell) g alpha beta acc t v t2,
      minimizeCellsT ops clk start d g cs alpha beta acc t = .ok (v, t2) →
      acc ≠ ⊥ → v ≠ ⊥ := by
  intro cs
  induction cs with
  | nil =>
    intro g alpha beta acc t v t2 hok hacc
    rw [minimizeCellsT] at hok
    injection hok with hok
    cases hok
    exact hacc
  | cons c rest ih =>
    intro g alpha beta acc t v t2 hok hacc
    rw [minimizeCellsT] at hok
    split at hok
    · exact absurd hok (by simp)
    · rename_i acc2 beta2 tmid heq
      have hacc2 : acc2 ≠ ⊥ :=
        minimizeTilesT_ne_bot ops clk start d hmax _ _ _ _ _ _ _ _ _ _ heq hacc
      split at hok
      · injection hok with hok
        cases hok
        exact hacc2
      · exact ih _ _ _ _ _ _ _ hok hacc2

/-- Move-loop invariant: from a non-`-∞` accumulator and an already-recorded
move, the result keeps a non-`-∞` value and a recorded move. -/
lemma maximizeLoopT_inv (ops : GridOps) (clk : ℕ → ℚ) (start : ℚ) (d : ℕ)
    (hmin : ∀ g alpha beta t v m t2,
      minimizeT ops clk start d g alpha beta t = .ok ((v, m), t2) → v ≠ ⊥) :
    ∀ (ms : List (Move × Board)) alpha beta acc best t v m t2,
      maximizeLoopT ops clk start d ms alpha beta acc best t =
        .ok ((v, m), t2) → acc ≠ ⊥ → best ≠ none → v ≠ ⊥ ∧ m ≠ none := by
  intro ms
  induction ms with
  | nil =>
    intro alpha beta acc best t v m t2 hok hacc hbest
    rw [maximizeLoopT] at hok
    injection hok with hok
    cases hok
    exact ⟨hacc, hbest⟩
  | cons mc rest ih =>
    intro alpha beta acc best t v m t2 hok hacc hbest
    obtain ⟨move, child⟩ := mc
    rw [maximizeLoopT] at hok
    split at hok
    · exact absurd hok (by simp)
    · rename_i u mu tmid heq
      have hu : u ≠ ⊥ := hmin _ _ _ _ _ _ _ (by simpa [chanceT] using heq)
      dsimp only at hok
      have hs1 : (if acc < u then (u, some move) else (acc, best)).1 ≠ ⊥ := by
        split <;> assumption
      have hs2 : (if acc < u then (u, some move) else (acc, best)).2 ≠ none := by
        split
        · simp
        · exact hbest
      split at hok
      · injection hok with hok
        have h1 : (if acc < u then (u, some move) else (acc, best)) = (v, m) :=
          congrArg Prod.fst hok
        have hv : v = (if acc < u then (u, some move) else (acc, best)).1 := by
          rw [h1]
        have hm : m = (if acc < u then (u, some move) else (acc, best)).2 := by
          rw [h1]
        rw [hv, hm]
        exact ⟨hs1, hs2⟩
      · exact ih _ _ _ _ _ _ _ _ hok hs1 hs2

/-- A successful non-terminal maximizing layer over a nonempty move list
returns a non-`-∞` value and a recorded move. -/
lemma maximizeLoopT_first (ops : GridOps) (clk : ℕ → ℚ) (start : ℚ) (d : ℕ)
    (hmin : ∀ g alpha beta t v m t2,
      minimizeT ops clk start d g alpha beta t = .ok ((v, m), t2) → v ≠ ⊥) :
    ∀ (ms : List (Move × Board)) alpha beta t v m t2, ms ≠ [] →
      maximizeLoopT ops clk start d ms alpha beta ⊥ none t =
        .ok ((v, m), t2) → v ≠ ⊥ ∧ m ≠ none := by
  intro ms alpha beta t v m t2 hne hok
  cases ms with
  | nil => exact absurd rfl hne
  | cons mc rest =>
    obtain ⟨move, child⟩ := mc
    rw [maximizeLoopT] at hok
    split at hok
    · exact absurd hok (by simp)
    · rename_i u mu tmid heq
      have hu : u ≠ ⊥ := hmin _ _ _ _ _ _ _ (by simpa [chanceT] using heq)
      have hlt : (⊥ : UtilityValue) < u := bot_lt_iff_ne_bot.mpr hu
      rw [if_pos hlt] at hok
      dsimp only at hok
      split at hok
      · injection hok with hok
        cases hok
        exact ⟨hu, by simp⟩
      · exact maximizeLoopT_inv ops clk start d hmin _ _ _ _ _ _ _ _ _ hok hu
          (by simp)

/-- With the `canMove` contract, every successful search value is not `-∞`,
and a successful non-terminal maximizing layer records a move. -/
lemma timed_ne_bot (ops : GridOps) (hmc : MovesContract ops) (clk : ℕ → ℚ)
    (start : ℚ) : ∀ d : ℕ,
    (∀ g alpha beta t v m t2,
      maximizeT ops clk start d g alpha beta t = .ok ((v, m), t2) →
      v ≠ ⊥ ∧ (d ≠ 0 → ops.canMove g = true → m ≠ none)) ∧
    (∀ g alpha beta t v m t2,
      minimizeT ops clk start d g alpha beta t = .ok ((v, m), t2) → v ≠ ⊥) := by
  intro d
  induction d using Nat.strong_induction_on with
  | _ d ih =>
    constructor
    · intro g alpha beta t v m t2 hok
      rw [maximizeT] at hok
      split at hok
      · rename_i hterm
        injection hok with hok
        cases hok
        rcases hterm with hd | hcm
        · exact ⟨uval_ne_bot _, fun hne => absurd hd hne⟩
        · exact ⟨uval_ne_bot _, fun _ hcm2 => by rw [hcm2] at hcm; cases hcm⟩
      · rename_i hterm
        split at hok
        · exact absurd hok (by simp)
        · have hd : d ≠ 0 := fun hh => hterm (Or.inl hh)
          have hcm : ops.canMove g = true := by
            cases hb : ops.canMove g
            · exact absurd (Or.inr hb) hterm
            · rfl
          have hne : ops.moves g ≠ [] := (hmc g).mp hcm
          have := maximizeLoopT_first ops clk start (d - 1)
            (fun gB aB bB tB vB mB t2B hB =>
              (ih (d - 1) (by omega)).2 gB aB bB tB vB mB t2B hB)
            (ops.moves g) alpha beta (t + 1) v m t2 hne hok
          exact ⟨this.1, fun _ _ => this.2⟩
    · intro g alpha beta t v m t2 hok
      rw [minimizeT] at hok
      split at hok
      · injection hok with hok
        cases hok
        exact uval_ne_bot _
      · split at hok
        · exact absurd hok (by simp)
        · split at hok
          · exact absurd hok (by simp)
          · rename_i v2 t3 heq
            injection hok with hok
            cases hok
            exact minimizeCellsT_ne_bot ops clk start (d - 1)
              (fun gB aB bB tB vB mB t2B hB =>
                ((ih (d - 1) (by omega)).1 gB aB bB tB vB mB t2B hB).1)
              _ _ _ _ _ _ _ _ heq (by simp)

/-- When the root board has no legal move, the iterative-deepening loop
never records a move. -/
lemma getMoveLoop_none_of_no_move (ops : GridOps) (clk : ℕ → ℚ) (start : ℚ)
    (g : Board) (h : ops.canMove g = false) :
    ∀ fuel depth t, getMoveLoop ops clk start g fuel depth none t = none := by
  intro fuel
  induction fuel with
  | zero => intro depth t; rw [getMoveLoop]
  | succ f ih =>
    intro depth t
    rw [getMoveLoop]
    split
    · have hterm : maximizeT ops clk start depth g ⊥ ⊤ (t + 1) =
          .ok ((uval (evaluate ops g), none), t + 1) := by
        rw [maximizeT]; exact dif_pos (Or.inr h)
      rw [hterm]
      exact ih (depth + 1) (t + 1)
    · rfl

/-- Once a move is recorded, the loop returns a move. -/
lemma getMoveLoop_keeps_some (ops : GridOps) (clk : ℕ → ℚ) (start : ℚ)
    (g : Board) : ∀ (fuel depth t : ℕ) (m0 : Move),
    ∃ m, getMoveLoop ops clk start g fuel depth (some m0) t = some m := by
  intro fuel
  induction fuel with
  | zero => intro depth t m0; exact ⟨m0, by rw [getMoveLoop]⟩
  | succ f ih =>
    intro depth t m0
    rw [getMoveLoop]
    split
    · rcases hq : maximizeT ops clk start depth g ⊥ ⊤ (t + 1) with e | r
      · exact ⟨m0, rfl⟩
      · obtain ⟨⟨v, mv⟩, t2⟩ := r
        cases mv with
        | none => exact ih (depth + 1) t2 m0
        | some m1 => exact ih (depth + 1) t2 m1
    · exact ⟨m0, rfl⟩

/-- Any move the loop returns either was already recorded before this call,
or was produced by a completed search iteration at some depth `k` after
which the loop stopped iterating: the fuel ran out after depth `k`, the
budget was already spent at the next `while`-check, or the depth-`k + 1`
search raised `TimeoutError`.  Since the loop visits depths in increasing
order and stops at the first non-completing iteration, `k` is the last
completed depth.  The hypothesis `H` (every completed search at depth ≥ 1
records a move) holds whenever the root board can move. -/
lemma getMoveLoop_last (ops : GridOps) (clk : ℕ → ℚ) (start : ℚ) (g : Board)
    (H : ∀ d t v mv t2, 1 ≤ d →
      maximizeT ops clk start d g ⊥ ⊤ t = .ok ((v, mv), t2) → mv ≠ none) :
    ∀ (fuel depth t : ℕ) (best : Option Move) (m : Move), 1 ≤ depth →
    getMoveLoop ops clk start g fuel depth best t = some m →
    (best = some m ∧
      (fuel = 0 ∨ ¬(clk t - start < playerMoveTimeLimit) ∨
        maximizeT ops clk start depth g ⊥ ⊤ (t + 1) = .error ())) ∨
    (∃ k tk v t2, depth ≤ k ∧
      maximizeT ops clk start k g ⊥ ⊤ tk = .ok ((v, some m), t2) ∧
      (depth + fuel = k + 1 ∨ ¬(clk t2 - start < playerMoveTimeLimit) ∨
        maximizeT ops clk start (k + 1) g ⊥ ⊤ (t2 + 1) = .error ())) := by
  intro fuel
  induction fuel with
  | zero =>
    intro depth t best m _ h
    rw [getMoveLoop] at h
    exact Or.inl ⟨h, Or.inl rfl⟩
  | succ f ih =>
    intro depth t best m hd h
    rw [getMoveLoop] at h
    split at h
    · generalize hq : maximizeT ops clk start depth g ⊥ ⊤ (t + 1) = res at h
      cases res with
      | error e =>
        cases e
        dsimp only at h
        exact Or.inl ⟨h, Or.inr (Or.inr rfl)⟩
      | ok r =>
        obtain ⟨⟨v, mv⟩, t2⟩ := r
        have hmv : mv ≠ none := H depth (t + 1) v mv t2 hd hq
        obtain ⟨m1, rfl⟩ : ∃ m1, mv = some m1 := by
          cases mv with
          | none => exact absurd rfl hmv
          | some m1 => exact ⟨m1, rfl⟩
        have h2 : getMoveLoop ops clk start g f (depth + 1) (some m1) t2 =
            some m := h
        rcases ih (depth + 1) t2 (some m1) m (by omega) h2 with
          ⟨hb, hrest⟩ | ⟨k, tk, v2, t3, hk, hok, hlast⟩
        · injection hb with hb
          subst hb
          refine Or.inr ⟨depth, t + 1, v, t2, le_refl _, hq, ?_⟩
          rcases hrest with hf | hc | he
          · exact Or.inl (by omega)
          · exact Or.inr (Or.inl hc)
          · exact Or.inr (Or.inr he)
        · refine Or.inr ⟨k, tk, v2, t3, by omega, hok, ?_⟩
          rcases hlast with hf | hrest
          · exact Or.inl (by omega)
          · exact Or.inr hrest
    · rename_i hclk
      exact Or.inl ⟨h, Or.inr (Or.inl hclk)⟩

/-- **C8**: `getMove` returns null exactly in the failure cases — no legal
move at the root, or no depth iteration ever completes within the budget
(zero iterations, the budget already spent at the first loop check, or the
depth-1 search timing out); otherwise it returns a move, and any returned
move was recorded from the **last** completed depth `k`: depth `k`'s search
completed returning that move, and the iteration at depth `k + 1` did not
complete — the fuel ran out, the budget was spent at the next `while`-check,
or the depth-`k + 1` search raised.  The timeout never escapes `getMove`:
its result type is a plain optional move. -/
theorem claim_C8_getMove_null_exactly_on_failure (ops : GridOps)
    (clk : ℕ → ℚ) (fuel : ℕ) (g : Board) (hmc : MovesContract ops) :
    (getMove ops clk fuel g = none ↔
      (ops.canMove g = false ∨ fuel = 0 ∨
        ¬(clk 1 - clk 0 < playerMoveTimeLimit) ∨
        maximizeT ops clk (clk 0) 1 g ⊥ ⊤ 2 = .error ())) ∧
    (∀ m, getMove ops clk fuel g = some m →
      ∃ k t v t2, 1 ≤ k ∧
        maximizeT ops clk (clk 0) k g ⊥ ⊤ t = .ok ((v, some m), t2) ∧
        (fuel = k ∨ ¬(clk t2 - clk 0 < playerMoveTimeLimit) ∨
          maximizeT ops clk (clk 0) (k + 1) g ⊥ ⊤ (t2 + 1) =
            .error ())) := by
  constructor
  · constructor
    · intro h
      by_contra hcon
      push_neg at hcon
      obtain ⟨hcm, hfuel, hclk, herr⟩ := hcon
      have hcm2 : ops.canMove g = true := by
        cases hb : ops.canMove g
        · exact absurd hb hcm
        · rfl
      obtain ⟨f, rfl⟩ : ∃ f, fuel = f + 1 := by
        cases fuel with
        | zero => exact absurd rfl hfuel
        | succ f => exact ⟨f, rfl⟩
      rcases hq : maximizeT ops clk (clk 0) 1 g ⊥ ⊤ 2 with e | r
      · cases e
        exact herr hq
      · obtain ⟨⟨v, mv⟩, t2⟩ := r
        have hmv : mv ≠ none :=
          ((timed_ne_bot ops hmc clk (clk 0) 1).1 g ⊥ ⊤ 2 v mv t2 hq).2
            (by omega) hcm2
        obtain ⟨m1, rfl⟩ : ∃ m1, mv = some m1 := by
          cases mv with
          | none => exact absurd rfl hmv
          | some m1 => exact ⟨m1, rfl⟩
        rw [getMove, getMoveLoop, if_pos hclk, hq] at h
        obtain ⟨m, hm⟩ := getMoveLoop_keeps_some ops clk (clk 0) g f 2 t2 m1
        have h2 : getMoveLoop ops clk (clk 0) g f 2 (some m1) t2 = none := h
        rw [h2] at hm
        cases hm
    · intro h
      rcases h with hcm | hfuel | hclk | herr
      · rw [getMove]
        exact getMoveLoop_none_of_no_move ops clk (clk 0) g hcm fuel 1 1
      · subst hfuel
        rw [getMove, getMoveLoop]
      · rw [getMove]
        cases fuel with
        | zero => rw [getMoveLoop]
        | succ f => rw [getMoveLoop, if_neg hclk]
      · rw [getMove]
        cases fuel with
        | zero => rw [getMoveLoop]
        | succ f =>
          rw [getMoveLoop]
          split
          · rw [herr]
          · rfl
  · intro m h
    have hcm : ops.canMove g = true := by
      cases hb : ops.canMove g
      · rw [getMove,
          getMoveLoop_none_of_no_move ops clk (clk 0) g hb fuel 1 1] at h
        cases h
      · rfl
    have H : ∀ d t v mv t2, 1 ≤ d →
        maximizeT ops clk (clk 0) d g ⊥ ⊤ t = .ok ((v, mv), t2) →
        mv ≠ none :=
      fun d t v mv t2 hd hok =>
        ((timed_ne_bot ops hmc clk (clk 0) d).1 g ⊥ ⊤ t v mv t2 hok).2
          (by omega) hcm
    rw [getMove] at h
    rcases getMoveLoop_last ops clk (clk 0) g H fuel 1 1 none m (le_refl 1) h
      with ⟨hb, _⟩ | ⟨k, tk, v, t2, hk, hok, hlast⟩
    · cases hb
    · refine ⟨k, tk, v, t2, hk, hok, ?_⟩
      rcases hlast with hf | hrest
      · exact Or.inl (by omega)
      · exact Or.inr hrest

/-- `claim_C8_getMove_null_exactly_on_failure` evaluated with the no-move
collaborator: the root has no legal move and `getMove` returns null. -/
theorem claim_C8_getMove_null_exactly_on_failure_witness :
    MovesContract noMoveOps ∧
    getMove noMoveOps (fun _ => (0 : ℚ)) 3 (fun _ _ => (0 : ℕ)) = none :=
  ⟨fun g => by simp [noMoveOps, MovesContract],
    (claim_C8_getMove_null_exactly_on_failure noMoveOps (fun _ => 0) 3 _
      (fun g => by simp [noMoveOps, MovesContract])).1.mpr (Or.inl rfl)⟩

/-- The strict-improvement update computes the maximum. -/
lemma ite_lt_max (a b : UtilityValue) : (if a < b then b else a) = max a b := by
  split
  · rename_i h
    exact (max_eq_right h.le).symm
  · rename_i h
    exact (max_eq_left (not_lt.mp h)).symm

/-- The unpruned move loop computes the maximum of its accumulator and the
remaining chance values. -/
lemma maximizeFullLoop_fst (ops : GridOps) (d : ℕ) :
    ∀ (ms : List (Move × Board)) acc best,
      (maximizeFullLoop ops d ms acc best).1 = max acc (movesTrueMax ops d ms) := by
  intro ms
  induction ms with
  | nil =>
    intro acc best
    rw [maximizeFullLoop]
    simp [movesTrueMax]
  | cons mc rest ih =>
    intro acc best
    obtain ⟨move, child⟩ := mc
    rw [maximizeFullLoop]
    have hmv : movesTrueMax ops d ((move, child) :: rest) =
        max (minimizeFull ops d child).1 (movesTrueMax ops d rest) := by
      simp [movesTrueMax]
    rw [hmv]
    split
    · rename_i h
      rw [ih]
      rw [← max_assoc, max_eq_right h.le]
    · rename_i h
      rw [ih]
      rw [← max_assoc, max_eq_left (not_lt.mp h)]

/-- The unpruned tile loop computes the minimum of its accumulator and the
remaining child values. -/
lemma minimizeFullTiles_eq (ops : GridOps) (d : ℕ) (g : Board) (c : Cell) :
    ∀ (ts : List (ℕ × ℚ)) acc,
      minimizeFullTiles ops d g c ts acc = min acc (tilesTrueMin ops d g c ts) := by
  intro ts
  induction ts with
  | nil =>
    intro acc
    rw [minimizeFullTiles]
    simp [tilesTrueMin]
  | cons tv rest ih =>
    intro acc
    obtain ⟨tileValue, p⟩ := tv
    rw [minimizeFullTiles]
    have htv : tilesTrueMin ops d g c ((tileValue, p) :: rest) =
        min (maximizeFull ops d (setCellValue g c tileValue)).1
          (tilesTrueMin ops d g c rest) := by
      simp [tilesTrueMin]
    rw [htv, ih, ← min_assoc]

/-- The unpruned cell loop computes the minimum of its accumulator and the
remaining per-cell minima. -/
lemma minimizeFullCells_eq (ops : GridOps) (d : ℕ) (g : Board) :
    ∀ (cs : List Cell) acc,
      minimizeFullCells ops d g cs acc = min acc (cellsTrueMin ops d g cs) := by
  intro cs
  induction cs with
  | nil =>
    intro acc
    rw [minimizeFullCells]
    simp [cellsTrueMin]
  | cons c rest ih =>
    intro acc
    rw [minimizeFullCells]
    have hcv : cellsTrueMin ops d g (c :: rest) =
        min (tilesTrueMin ops d g c possibleTileProbabilities)
          (cellsTrueMin ops d g rest) := by
      simp [cellsTrueMin]
    rw [hcv, ih, minimizeFullTiles_eq, ← min_assoc]

/-- The unpruned maximizing node value at a non-terminal node. -/
lemma maximizeFull_fst (ops : GridOps) (d : ℕ) (g : Board)
    (h : ¬(d = 0 ∨ ops.canMove g = false)) :
    (maximizeFull ops d g).1 = movesTrueMax ops (d - 1) (ops.moves g) := by
  rw [maximizeFull, dif_neg h, maximizeFullLoop_fst]
  exact bot_sup_eq _

/-- The unpruned chance node value at a non-terminal node. -/
lemma minimizeFull_fst (ops : GridOps) (d : ℕ) (g : Board)
    (h : ¬(d = 0 ∨ ops.canMove g = false)) :
    (minimizeFull ops d g).1 =
      cellsTrueMin ops (d - 1) g (rankCells ops g) := by
  rw [minimizeFull, dif_neg h]
  dsimp only
  rw [minimizeFullCells_eq]
  exact top_inf_eq _

/-- No element strictly above the accumulator: the unpruned move loop keeps
its state. -/
lemma maximizeFullLoop_no_improve (ops : GridOps) (d : ℕ) :
    ∀ (ms : List (Move × Board)) acc best,
      (∀ mc ∈ ms, (minimizeFull ops d mc.2).1 ≤ acc) →
      maximizeFullLoop ops d ms acc best = (acc, best) := by
  intro ms
  induction ms with
  | nil => intro acc best h; rw [maximizeFullLoop]
  | cons mc rest ih =>
    intro acc best h
    obtain ⟨move, child⟩ := mc
    rw [maximizeFullLoop]
    rw [if_neg (not_lt.mpr (h (move, child) (by simp)))]
    exact ih acc best (fun mc hmc => h mc (by simp [hmc]))

/-- If a minimum over two values is at most `v`, and `v` is strictly below
the first, the second is at most `v`. -/
lemma min_le_of_lt_left {u w v : UtilityValue} (h : min u w ≤ v) (hv : v < u) :
    w ≤ v := by
  rcases min_cases u w with ⟨heq, -⟩ | ⟨heq, -⟩
  · rw [heq] at h
    exact absurd hv (not_lt.mpr h)
  · rw [heq] at h
    exact h

/-- Fail-soft bounds for the pruned tile loop, given the Knuth-Moore bounds
for the maximizing layer at the child depth: the loop result upper-bounds
nothing it skipped when it failed low, is exact inside the window, and
lower-bounds the true minimum when it failed high. -/
lemma minimizeTiles_bounds (ops : GridOps) (d : ℕ)
    (hmax : ∀ g alpha beta, alpha < beta →
      ((maximize ops d g alpha beta).1 ≤ alpha →
        (maximizeFull ops d g).1 ≤ (maximize ops d g alpha beta).1) ∧
      (alpha < (maximize ops d g alpha beta).1 →
        (maximize ops d g alpha beta).1 < beta →
        (maximize ops d g alpha beta).1 = (maximizeFull ops d g).1) ∧
      (beta ≤ (maximize ops d g alpha beta).1 →
        (maximize ops d g alpha beta).1 ≤ (maximizeFull ops d g).1)) :
    ∀ (ts : List (ℕ × ℚ)) (g : Board) (c : Cell)
      (alpha beta acc v bet : UtilityValue),
      alpha < beta → beta ≤ acc →
      minimizeTiles ops d g c ts alpha beta acc = (v, bet) →
      v ≤ acc ∧ bet = min beta v ∧
      (v ≤ alpha → min acc (tilesTrueMin ops d g c ts) ≤ v) ∧
      (alpha < v → v < beta → v = min acc (tilesTrueMin ops d g c ts)) ∧
      (beta ≤ v → v ≤ min acc (tilesTrueMin ops d g c ts)) := by
  intro ts
  induction ts with
  | nil =>
    intro g c alpha beta acc v bet hab hba heq
    rw [minimizeTiles] at heq
    injection heq with h1 h2
    subst h1
    subst h2
    have htop : tilesTrueMin ops d g c [] = ⊤ := by simp [tilesTrueMin]
    rw [htop]
    refine ⟨le_refl _, (min_eq_left hba).symm, fun _ => ?_, fun _ _ => ?_,
      fun _ => ?_⟩
    · rw [inf_top_eq]
    · rw [inf_top_eq]
    · rw [inf_top_eq]
  | cons tv rest ih =>
    intro g c alpha beta acc v bet hab hba heq
    obtain ⟨tileValue, p⟩ := tv
    rw [minimizeTiles] at heq
    set u := (maximize ops d (setCellValue g c tileValue) alpha beta).1 with hu
    set ut := (maximizeFull ops d (setCellValue g c tileValue)).1 with hut
    have hT : tilesTrueMin ops d g c ((tileValue, p) :: rest) =
        min ut (tilesTrueMin ops d g c rest) := by
      simp [tilesTrueMin, hut]
    set Tr := tilesTrueMin ops d g c rest with hTr
    have hkm := hmax (setCellValue g c tileValue) alpha beta hab
    rw [hT]
    split at heq
    · -- break: min beta u ≤ alpha
      rename_i hbr
      injection heq with h1 h2
      subst h1
      subst h2
      have hua : u ≤ alpha := by
        by_contra hcon
        exact absurd hbr (not_le.mpr (lt_min hab (not_le.mp hcon)))
      have hutu : ut ≤ u := hkm.1 hua
      have hvu : min acc u ≤ u := min_le_right _ _
      refine ⟨min_le_left _ _, ?_, fun _ => ?_, fun hav hvb => ?_, fun hbv => ?_⟩
      · -- min beta u = min beta (min acc u)
        rw [← min_assoc, min_eq_left hba]
      · -- min acc (min ut Tr) ≤ min acc u
        refine le_min (min_le_left _ _) ?_
        exact le_trans (min_le_right acc _) (le_trans (min_le_left ut Tr) hutu)
      · exact absurd hav (not_lt.mpr (le_trans hvu hua))
      · exact absurd (le_trans hbv (le_trans hvu hua)) (not_le.mpr hab)
    · -- continue with beta' = min beta u, acc' = min acc u
      rename_i hbr
      have hab2 : alpha < min beta u := not_le.mp hbr
      have hba2 : min beta u ≤ min acc u := min_le_min hba (le_refl u)
      obtain ⟨i0, i1, i2, i3, i4⟩ := ih g c alpha (min beta u) (min acc u) v bet
        hab2 hba2 heq
      have hau : alpha < u := lt_of_lt_of_le hab2 (min_le_right _ _)
      have hvu : v ≤ u := le_trans i0 (min_le_right _ _)
      have hacc : v ≤ acc := le_trans i0 (min_le_left _ _)
      have hmin_comm : min (min acc u) Tr = min u (min acc Tr) := by
        rw [min_assoc, min_left_comm]
      refine ⟨hacc, ?_, fun hva => ?_, fun hav hvb => ?_, fun hbv => ?_⟩
      · -- bet = min beta v
        rw [i1, min_assoc, min_eq_right hvu]
      · -- fail low
        rcases lt_or_le u beta with hub | hub
        · have hux : u = ut := hkm.2.1 hau hub
          have : min (min acc u) Tr ≤ v := i2 hva
          rw [hux] at this
          rw [← min_assoc]
          exact this
        · have hutu : u ≤ ut := hkm.2.2 hub
          have h2 : min (min acc u) Tr ≤ v := i2 hva
          rw [hmin_comm] at h2
          have h3 : min acc Tr ≤ v :=
            min_le_of_lt_left h2 (lt_of_le_of_lt hva hau)
          calc min acc (min ut Tr) ≤ min acc Tr := by
                exact min_le_min (le_refl acc) (min_le_right ut Tr)
            _ ≤ v := h3
      · -- exact
        rcases lt_or_le v (min beta u) with hvb2 | hvb2
        · have hve : v = min (min acc u) Tr := i3 hav hvb2
          rcases lt_or_le u beta with hub | hub
          · have hke : u = ut := hkm.2.1 hau hub
            rw [hke] at hve
            rw [← min_assoc]
            exact hve
          · have hutu : u ≤ ut := hkm.2.2 hub
            have hvu2 : v < u := lt_of_lt_of_le hvb hub
            rw [hmin_comm] at hve
            have hve2 : v = min acc Tr := by
              rcases min_cases u (min acc Tr) with ⟨hm, -⟩ | ⟨hm, -⟩
              · rw [hm] at hve
                exact absurd hve (ne_of_lt hvu2)
              · rw [hm] at hve
                exact hve
            have hrw : min acc (min ut Tr) = min acc Tr := by
              rw [min_left_comm]
              refine min_eq_right ?_
              rw [← hve2]
              exact le_trans hvu2.le hutu
            rw [hrw]
            exact hve2
        · -- min beta u ≤ v < beta forces u = v
          have hu_eq : min beta u = u := by
            rcases min_cases beta u with ⟨hm, -⟩ | ⟨hm, -⟩
            · rw [hm] at hvb2
              exact absurd hvb (not_lt.mpr hvb2)
            · exact hm
          rw [hu_eq] at hvb2 i4
          have hv_le : v ≤ min (min acc u) Tr := i4 hvb2
          have huv : u = v := le_antisymm hvb2 hvu
          have hub : u < beta := by rw [huv]; exact hvb
          have hux : u = ut := hkm.2.1 hau hub
          have hutv : v = ut := by rw [← huv]; exact hux
          refine le_antisymm ?_ ?_
          · exact le_min hacc (le_min (le_of_eq hutv)
              (le_trans hv_le (min_le_right _ _)))
          · calc min acc (min ut Tr) ≤ min ut Tr := min_le_right _ _
              _ ≤ ut := min_le_left _ _
              _ = v := hutv.symm
      · -- fail high
        have hbu : beta ≤ u := le_trans hbv hvu
        have hbeq : min beta u = beta := min_eq_left hbu
        rw [hbeq] at i4
        have hv_le : v ≤ min (min acc u) Tr := i4 hbv
        have hutu : u ≤ ut := hkm.2.2 hbu
        calc v ≤ min (min acc u) Tr := hv_le
          _ = min u (min acc Tr) := hmin_comm
          _ ≤ min ut (min acc Tr) := min_le_min hutu (le_refl _)
          _ = min acc (min ut Tr) := min_left_comm ut acc Tr

/-- Fail-soft bounds for the pruned cell loop, given the Knuth-Moore bounds
for the maximizing layer at the child depth. -/
lemma minimizeCells_bounds (ops : GridOps) (d : ℕ)
    (hmax : ∀ g alpha beta, alpha < beta →
      ((maximize ops d g alpha beta).1 ≤ alpha →
        (maximizeFull ops d g).1 ≤ (maximize ops d g alpha beta).1) ∧
      (alpha < (maximize ops d g alpha beta).1 →
        (maximize ops d g alpha beta).1 < beta →
        (maximize ops d g alpha beta).1 = (maximizeFull ops d g).1) ∧
      (beta ≤ (maximize ops d g alpha beta).1 →
        (maximize ops d g alpha beta).1 ≤ (maximizeFull ops d g).1)) :
    ∀ (cs : List Cell) (g : Board) (alpha beta acc v : UtilityValue),
      alpha < beta → beta ≤ acc →
      minimizeCells ops d g cs alpha beta acc = v →
      v ≤ acc ∧
      (v ≤ alpha → min acc (cellsTrueMin ops d g cs) ≤ v) ∧
      (alpha < v → v < beta → v = min acc (cellsTrueMin ops d g cs)) ∧
      (beta ≤ v → v ≤ min acc (cellsTrueMin ops d g cs)) := by
  intro cs
  induction cs with
  | nil =>
    intro g alpha beta acc v hab hba heq
    rw [minimizeCells] at heq
    subst heq
    have htop : cellsTrueMin ops d g [] = ⊤ := by simp [cellsTrueMin]
    rw [htop, inf_top_eq]
    exact ⟨le_refl _, fun _ => le_refl _, fun _ _ => rfl, fun _ => le_refl _⟩
  | cons c rest ih =>
    intro g alpha beta acc v hab hba heq
    rw [minimizeCells] at heq
    rcases hs : minimizeTiles ops d g c possibleTileProbabilities alpha beta acc
      with ⟨r1, bet1⟩
    rw [hs] at heq
    dsimp only at heq
    obtain ⟨b0, b1, b2, b3, b4⟩ :=
      minimizeTiles_bounds ops d hmax possibleTileProbabilities g c
        alpha beta acc r1 bet1 hab hba hs
    set Th := tilesTrueMin ops d g c possibleTileProbabilities with hTh
    have hC : cellsTrueMin ops d g (c :: rest) =
        min Th (cellsTrueMin ops d g rest) := by
      simp [cellsTrueMin, hTh]
    set Cr := cellsTrueMin ops d g rest with hCr
    rw [hC]
    split at heq
    · -- outer break: bet1 ≤ alpha
      rename_i hbr
      subst heq
      have hra : r1 ≤ alpha := by
        by_contra hcon
        rw [b1] at hbr
        exact absurd hbr (not_le.mpr (lt_min hab (not_le.mp hcon)))
      refine ⟨b0, fun _ => ?_, fun hav _ => ?_, fun hbv => ?_⟩
      · calc min acc (min Th Cr) = min (min acc Th) Cr := (min_assoc _ _ _).symm
          _ ≤ min acc Th := min_le_left _ _
          _ ≤ r1 := b2 hra
      · exact absurd hav (not_lt.mpr hra)
      · exact absurd (le_trans hbv hra) (not_le.mpr hab)
    · -- continue with beta' = bet1, acc' = r1
      rename_i hbr
      have hab2 : alpha < bet1 := not_le.mp hbr
      have hba2 : bet1 ≤ r1 := by rw [b1]; exact min_le_right _ _
      obtain ⟨i0, i2, i3, i4⟩ := ih g alpha bet1 r1 v hab2 hba2 heq
      have har1 : alpha < r1 := lt_of_lt_of_le hab2 hba2
      have hvr1 : v ≤ r1 := i0
      have hvacc : v ≤ acc := le_trans i0 b0
      refine ⟨hvacc, fun hva => ?_, fun hav hvb => ?_, fun hbv => ?_⟩
      · -- fail low
        have h2 : min r1 Cr ≤ v := i2 hva
        rcases lt_or_le r1 beta with hr1b | hr1b
        · have hre : r1 = min acc Th := b3 har1 hr1b
          calc min acc (min Th Cr) = min (min acc Th) Cr := (min_assoc _ _ _).symm
            _ = min r1 Cr := by rw [← hre]
            _ ≤ v := h2
        · have hvltr1 : v < r1 :=
            lt_of_le_of_lt hva (lt_of_lt_of_le hab hr1b)
          have hCrv : Cr ≤ v := min_le_of_lt_left h2 hvltr1
          calc min acc (min Th Cr) ≤ min Th Cr := min_le_right _ _
            _ ≤ Cr := min_le_right _ _
            _ ≤ v := hCrv
      · -- exact
        rcases lt_or_le v bet1 with hvb2 | hvb2
        · have hve : v = min r1 Cr := i3 hav hvb2
          rcases lt_or_le r1 beta with hr1b | hr1b
          · have hre : r1 = min acc Th := b3 har1 hr1b
            rw [hve, hre, min_assoc]
          · have hvltr1 : v < r1 := lt_of_lt_of_le hvb hr1b
            have hveq : v = Cr := by
              rcases min_cases r1 Cr with ⟨hm, -⟩ | ⟨hm, -⟩
              · rw [hm] at hve
                exact absurd hve (ne_of_lt hvltr1)
              · rw [hm] at hve
                exact hve
            have hr1Th : r1 ≤ min acc Th := b4 hr1b
            have hCrle : Cr ≤ min acc Th :=
              le_trans (le_trans hveq.symm.le (le_of_lt hvltr1)) hr1Th
            calc v = Cr := hveq
              _ = min (min acc Th) Cr := (min_eq_right hCrle).symm
              _ = min acc (min Th Cr) := min_assoc _ _ _
        · -- bet1 ≤ v < beta forces r1 = v
          have hbet1 : bet1 = r1 := by
            rw [b1]
            rcases min_cases beta r1 with ⟨hm, -⟩ | ⟨hm, -⟩
            · rw [b1, hm] at hvb2
              exact absurd hvb (not_lt.mpr hvb2)
            · exact hm
          rw [hbet1] at hvb2
          have hvv : v = r1 := le_antisymm hvr1 hvb2
          have hr1b : r1 < beta := by rw [← hvv]; exact hvb
          have hre : r1 = min acc Th := b3 har1 hr1b
          have hv_le : v ≤ min r1 Cr := i4 (hbet1 ▸ hvb2)
          refine le_antisymm ?_ ?_
          · calc v ≤ min r1 Cr := hv_le
              _ = min (min acc Th) Cr := by rw [← hre]
              _ = min acc (min Th Cr) := min_assoc _ _ _
          · calc min acc (min Th Cr) = min (min acc Th) Cr := (min_assoc _ _ _).symm
              _ = min r1 Cr := by rw [← hre]
              _ ≤ r1 := min_le_left _ _
              _ = v := hvv.symm
      · -- fail high
        have hbr1 : beta ≤ r1 := le_trans hbv hvr1
        have hbet1 : bet1 = beta := by rw [b1]; exact min_eq_left hbr1
        have hv_le : v ≤ min r1 Cr := i4 (by rw [hbet1]; exact hbv)
        have hr1Th : r1 ≤ min acc Th := b4 hbr1
        calc v ≤ min r1 Cr := hv_le
          _ ≤ min (min acc Th) Cr :=
            min_le_min hr1Th (le_refl _)
          _ = min acc (min Th Cr) := min_assoc _ _ _

/-- `chance` is `minimize`. -/
lemma chance_eq (ops : GridOps) (d : ℕ) (g : Board)
    (alpha beta : UtilityValue) :
    chance ops d g alpha beta = minimize ops d g alpha beta := by
  rw [chance]

/-- If a maximum over two values is at least `v`, and `v` is strictly above
the first, the second is at least `v`. -/
lemma le_max_of_lt_left {u w v : UtilityValue} (h : v ≤ max u w) (hv : u < v) :
    v ≤ w := by
  rcases max_cases u w with ⟨heq, -⟩ | ⟨heq, -⟩
  · rw [heq] at h
    exact absurd hv (not_lt.mpr h)
  · rw [heq] at h
    exact h

/-- The strict-improvement pair update has the maximum as value. -/
lemma improve_fst (acc u : UtilityValue) (move : Move) (best : Option Move) :
    (if acc < u then (u, some move) else (acc, best)).1 = max acc u := by
  split
  · rename_i h
    exact (max_eq_right h.le).symm
  · rename_i h
    exact (max_eq_left (not_lt.mp h)).symm

/-- Fail-soft bounds for the pruned move loop, given the Knuth-Moore bounds
for the chance layer at the child depth. -/
lemma maximizeLoop_bounds (ops : GridOps) (d : ℕ)
    (hmin : ∀ g alpha beta, alpha < beta →
      ((minimize ops d g alpha beta).1 ≤ alpha →
        (minimizeFull ops d g).1 ≤ (minimize ops d g alpha beta).1) ∧
      (alpha < (minimize ops d g alpha beta).1 →
        (minimize ops d g alpha beta).1 < beta →
        (minimize ops d g alpha beta).1 = (minimizeFull ops d g).1) ∧
      (beta ≤ (minimize ops d g alpha beta).1 →
        (minimize ops d g alpha beta).1 ≤ (minimizeFull ops d g).1)) :
    ∀ (ms : List (Move × Board)) (alpha beta acc : UtilityValue)
      (best : Option Move) (v : UtilityValue) (m : Option Move),
      alpha < beta → acc ≤ alpha →
      maximizeLoop ops d ms alpha beta acc best = (v, m) →
      acc ≤ v ∧
      (v ≤ alpha → max acc (movesTrueMax ops d ms) ≤ v) ∧
      (alpha < v → v < beta → v = max acc (movesTrueMax ops d ms)) ∧
      (beta ≤ v → v ≤ max acc (movesTrueMax ops d ms)) := by
  intro ms
  induction ms with
  | nil =>
    intro alpha beta acc best v m hab haa heq
    rw [maximizeLoop] at heq
    injection heq with h1 h2
    subst h1
    have hbot : movesTrueMax ops d [] = ⊥ := by simp [movesTrueMax]
    rw [hbot, sup_bot_eq]
    exact ⟨le_refl _, fun _ => le_refl _, fun _ _ => rfl, fun _ => le_refl _⟩
  | cons mc rest ih =>
    intro alpha beta acc best v m hab haa heq
    obtain ⟨move, child⟩ := mc
    rw [maximizeLoop] at heq
    rw [chance_eq] at heq
    set u := (minimize ops d child alpha beta).1 with hu
    set ut := (minimizeFull ops d child).1 with hut
    have hM : movesTrueMax ops d ((move, child) :: rest) =
        max ut (movesTrueMax ops d rest) := by
      simp [movesTrueMax, hut]
    set Mr := movesTrueMax ops d rest with hMr
    have hkm := hmin child alpha beta hab
    rw [hM]
    have hs1 : (if acc < u then (u, some move) else (acc, best)).1 = max acc u :=
      improve_fst acc u move best
    have hmax_comm : max (max acc u) Mr = max u (max acc Mr) := by
      rw [max_assoc, max_left_comm]
    split at heq
    · -- break: beta ≤ max alpha u
      rename_i hbr
      have hbu : beta ≤ u := by
        rcases max_cases alpha u with ⟨hm, -⟩ | ⟨hm, -⟩
        · rw [hm] at hbr
          exact absurd hab (not_lt.mpr hbr)
        · rw [hm] at hbr
          exact hbr
      have hutu : u ≤ ut := hkm.2.2 hbu
      have hv : v = max acc u := by
        rw [← hs1, congrArg Prod.fst heq]
      have huv : u ≤ v := by rw [hv]; exact le_max_right _ _
      refine ⟨by rw [hv]; exact le_max_left _ _, fun hva => ?_,
        fun hav hvb => ?_, fun hbv => ?_⟩
      · exact absurd (lt_of_lt_of_le hab (le_trans hbu huv))
          (not_lt.mpr hva)
      · exact absurd (le_trans hbu huv) (not_le.mpr hvb)
      · rw [hv]
        refine max_le (le_max_left _ _) ?_
        exact le_trans hutu (le_trans (le_max_left ut Mr) (le_max_right acc _))
    · -- continue with alpha' = max alpha u, acc' = max acc u
      rename_i hbr
      have hab2 : max alpha u < beta := not_le.mp hbr
      have hub : u < beta := lt_of_le_of_lt (le_max_right alpha u) hab2
      rw [hs1] at heq
      have haa2 : max acc u ≤ max alpha u := max_le_max haa (le_refl u)
      obtain ⟨i0, i2, i3, i4⟩ := ih (max alpha u) beta (max acc u)
        (if acc < u then ((u : UtilityValue), some move) else (acc, best)).2
        v m hab2 haa2 heq
      have huv : u ≤ v := le_trans (le_max_right acc u) i0
      have hav2 : acc ≤ v := le_trans (le_max_left acc u) i0
      refine ⟨hav2, fun hva => ?_, fun hav hvb => ?_, fun hbv => ?_⟩
      · -- fail low
        have hua : u ≤ alpha := le_trans huv hva
        have hutu : ut ≤ u := hkm.1 hua
        have hae : max alpha u = alpha := max_eq_left hua
        rw [hae] at i2
        have h2 : max (max acc u) Mr ≤ v := i2 hva
        calc max acc (max ut Mr) ≤ max acc (max u Mr) :=
              max_le_max (le_refl acc) (max_le_max hutu (le_refl Mr))
          _ = max (max acc u) Mr := (max_assoc _ _ _).symm
          _ ≤ v := h2
      · -- exact
        rcases lt_or_le (max alpha u) v with hav2b | hav2b
        · have hve : v = max (max acc u) Mr := i3 hav2b hvb
          rcases lt_or_le alpha u with hau | hau
          · have hke : u = ut := hkm.2.1 hau hub
            rw [hke] at hve
            rw [← max_assoc]
            exact hve
          · have hutu : ut ≤ u := hkm.1 hau
            have huv2 : u < v := lt_of_le_of_lt hau hav
            rw [hmax_comm] at hve
            have hve2 : v = max acc Mr := by
              rcases max_cases u (max acc Mr) with ⟨hm, -⟩ | ⟨hm, -⟩
              · rw [hm] at hve
                exact absurd hve.symm (ne_of_lt huv2)
              · rw [hm] at hve
                exact hve
            have hrw : max acc (max ut Mr) = max acc Mr := by
              rw [max_left_comm]
              refine max_eq_right ?_
              rw [← hve2]
              exact le_trans hutu (le_trans hau hav.le)
            rw [hrw]
            exact hve2
        · -- v ≤ max alpha u with alpha < v forces u = v
          have hu_eq : max alpha u = u := by
            rcases max_cases alpha u with ⟨hm, -⟩ | ⟨hm, -⟩
            · rw [hm] at hav2b
              exact absurd hav (not_lt.mpr hav2b)
            · exact hm
          rw [hu_eq] at hav2b
          have huvv : u = v := le_antisymm huv hav2b
          have hau : alpha < u := by rw [huvv]; exact hav
          have hux : u = ut := hkm.2.1 hau hub
          have hutv : v = ut := by rw [← huvv]; exact hux
          have hv_le : max (max acc u) Mr ≤ v := by
            rw [hu_eq] at i2
            exact i2 hav2b
          refine le_antisymm ?_ ?_
          · calc v = ut := hutv
              _ ≤ max ut Mr := le_max_left _ _
              _ ≤ max acc (max ut Mr) := le_max_right _ _
          · refine max_le (le_trans (le_max_left acc u)
              (le_trans (le_max_left _ Mr) hv_le)) (max_le ?_ ?_)
            · exact le_of_eq hutv.symm
            · exact le_trans (le_max_right (max acc u) Mr) hv_le
      · -- fail high
        have h2 : v ≤ max (max acc u) Mr := i4 hbv
        rcases lt_or_le alpha u with hau | hau
        · have hke : u = ut := hkm.2.1 hau hub
          rw [hke] at h2
          calc v ≤ max (max acc ut) Mr := h2
            _ = max acc (max ut Mr) := max_assoc _ _ _
        · have hutu : ut ≤ u := hkm.1 hau
          have huv2 : u < v := lt_of_le_of_lt hau (lt_of_lt_of_le hab hbv)
          rw [hmax_comm] at h2
          have h3 : v ≤ max acc Mr := le_max_of_lt_left h2 huv2
          calc v ≤ max acc Mr := h3
            _ ≤ max acc (max ut Mr) :=
              max_le_max (le_refl acc) (le_max_right ut Mr)

/-- Knuth-Moore fail-soft bounds for both layers at every depth: against the
unpruned traversal, a pruned node value is an upper bound when it fails low,
exact inside the window, and a lower bound when it fails high. -/
lemma alphaBeta_bounds (ops : GridOps) : ∀ d : ℕ,
    (∀ g alpha beta, alpha < beta →
      ((maximize ops d g alpha beta).1 ≤ alpha →
        (maximizeFull ops d g).1 ≤ (maximize ops d g alpha beta).1) ∧
      (alpha < (maximize ops d g alpha beta).1 →
        (maximize ops d g alpha beta).1 < beta →
        (maximize ops d g alpha beta).1 = (maximizeFull ops d g).1) ∧
      (beta ≤ (maximize ops d g alpha beta).1 →
        (maximize ops d g alpha beta).1 ≤ (maximizeFull ops d g).1)) ∧
    (∀ g alpha beta, alpha < beta →
      ((minimize ops d g alpha beta).1 ≤ alpha →
        (minimizeFull ops d g).1 ≤ (minimize ops d g alpha beta).1) ∧
      (alpha < (minimize ops d g alpha beta).1 →
        (minimize ops d g alpha beta).1 < beta →
        (minimize ops d g alpha beta).1 = (minimizeFull ops d g).1) ∧
      (beta ≤ (minimize ops d g alpha beta).1 →
        (minimize ops d g alpha beta).1 ≤ (minimizeFull ops d g).1)) := by
  intro d
  induction d using Nat.strong_induction_on with
  | _ d ih =>
    constructor
    · intro g alpha beta hab
      by_cases hterm : d = 0 ∨ ops.canMove g = false
      · have h1 : maximize ops d g alpha beta = (uval (evaluate ops g), none) := by
          rw [maximize]; exact dif_pos hterm
        have h2 : maximizeFull ops d g = (uval (evaluate ops g), none) := by
          rw [maximizeFull]; exact dif_pos hterm
        rw [h1, h2]
        exact ⟨fun _ => le_refl _, fun _ _ => rfl, fun _ => le_refl _⟩
      · have h1 : maximize ops d g alpha beta =
            maximizeLoop ops (d - 1) (ops.moves g) alpha beta ⊥ none := by
          rw [maximize]; exact dif_neg hterm
        rcases hres : maximizeLoop ops (d - 1) (ops.moves g) alpha beta ⊥ none
          with ⟨v, m⟩
        have hv : (maximize ops d g alpha beta).1 = v := by rw [h1, hres]
        have hd : d ≠ 0 := fun hh => hterm (Or.inl hh)
        obtain ⟨-, i2, i3, i4⟩ := maximizeLoop_bounds ops (d - 1)
          (fun gB aB bB habB => (ih (d - 1) (by omega)).2 gB aB bB habB)
          (ops.moves g) alpha beta ⊥ none v m hab bot_le hres
        rw [bot_sup_eq] at i2 i3 i4
        rw [hv, maximizeFull_fst ops d g hterm]
        exact ⟨i2, i3, i4⟩
    · intro g alpha beta hab
      by_cases hterm : d = 0 ∨ ops.canMove g = false
      · have h1 : minimize ops d g alpha beta = (uval (evaluate ops g), none) := by
          rw [minimize]; exact dif_pos hterm
        have h2 : minimizeFull ops d g = (uval (evaluate ops g), none) := by
          rw [minimizeFull]; exact dif_pos hterm
        rw [h1, h2]
        exact ⟨fun _ => le_refl _, fun _ _ => rfl, fun _ => le_refl _⟩
      · have h1 : minimize ops d g alpha beta =
            (minimizeCells ops (d - 1) g (rankCells ops g) alpha beta ⊤,
              none) := by
          rw [minimize]; exact dif_neg hterm
        have hv : (minimize ops d g alpha beta).1 =
            minimizeCells ops (d - 1) g (rankCells ops g) alpha beta ⊤ := by
          rw [h1]
        have hd : d ≠ 0 := fun hh => hterm (Or.inl hh)
        obtain ⟨-, i2, i3, i4⟩ := minimizeCells_bounds ops (d - 1)
          (fun gB aB bB habB => (ih (d - 1) (by omega)).1 gB aB bB habB)
          (rankCells ops g) g alpha beta ⊤
          (minimizeCells ops (d - 1) g (rankCells ops g) alpha beta ⊤)
          hab le_top rfl
        rw [top_inf_eq] at i2 i3 i4
        rw [hv, minimizeFull_fst ops d g hterm]
        exact ⟨i2, i3, i4⟩

/-- At the root window `(alpha, +∞)` with the invariant `alpha = running
best`, the pruned move loop returns exactly the unpruned loop's value and
move. -/
lemma maximizeLoop_root (ops : GridOps) (d : ℕ)
    (hmin : ∀ g alpha beta, alpha < beta →
      ((minimize ops d g alpha beta).1 ≤ alpha →
        (minimizeFull ops d g).1 ≤ (minimize ops d g alpha beta).1) ∧
      (alpha < (minimize ops d g alpha beta).1 →
        (minimize ops d g alpha beta).1 < beta →
        (minimize ops d g alpha beta).1 = (minimizeFull ops d g).1) ∧
      (beta ≤ (minimize ops d g alpha beta).1 →
        (minimize ops d g alpha beta).1 ≤ (minimizeFull ops d g).1)) :
    ∀ (ms : List (Move × Board)) (acc : UtilityValue) (best : Option Move),
      acc < ⊤ →
      maximizeLoop ops d ms acc ⊤ acc best = maximizeFullLoop ops d ms acc best := by
  intro ms
  induction ms with
  | nil =>
    intro acc best hacc
    rw [maximizeLoop, maximizeFullLoop]
  | cons mc rest ih =>
    intro acc best hacc
    obtain ⟨move, child⟩ := mc
    set u := (minimize ops d child acc ⊤).1 with hu
    set ut := (minimizeFull ops d child).1 with hut
    have hkm := hmin child acc ⊤ hacc
    rcases le_or_lt u acc with hua | hau
    · -- no improvement: true child value is also at most the running best
      have hutu : ut ≤ u := hkm.1 hua
      have hL : maximizeLoop ops d ((move, child) :: rest) acc ⊤ acc best =
          maximizeLoop ops d rest acc ⊤ acc best := by
        rw [maximizeLoop, chance_eq, if_neg (not_lt.mpr hua),
          max_eq_left hua, if_neg (not_le.mpr hacc)]
      have hR : maximizeFullLoop ops d ((move, child) :: rest) acc best =
          maximizeFullLoop ops d rest acc best := by
        rw [maximizeFullLoop, if_neg (not_lt.mpr (le_trans hutu hua))]
      rw [hL, hR]
      exact ih acc best hacc
    · rcases lt_or_le u ⊤ with hut2 | hut2
      · -- strict improvement with an exact child value
        have hke : u = ut := hkm.2.1 hau hut2
        have hL : maximizeLoop ops d ((move, child) :: rest) acc ⊤ acc best =
            maximizeLoop ops d rest u ⊤ u (some move) := by
          rw [maximizeLoop, chance_eq, if_pos hau, max_eq_right hau.le,
            if_neg (not_le.mpr hut2)]
        have hR : maximizeFullLoop ops d ((move, child) :: rest) acc best =
            maximizeFullLoop ops d rest ut (some move) := by
          rw [maximizeFullLoop, if_pos (show acc < ut from hke ▸ hau)]
        rw [hL, hR, ← hke]
        exact ih u (some move) hut2
      · -- the child value is +∞: the root prunes, and no later move improves
        have hueq : u = ⊤ := le_antisymm le_top hut2
        have hutu : u ≤ ut := hkm.2.2 hut2
        have huteq : ut = ⊤ := le_antisymm le_top (hueq ▸ hutu)
        have hL : maximizeLoop ops d ((move, child) :: rest) acc ⊤ acc best =
            (u, some move) := by
          rw [maximizeLoop, chance_eq, if_pos hau, max_eq_right hau.le,
            if_pos hut2]
        have hR : maximizeFullLoop ops d ((move, child) :: rest) acc best =
            (ut, some move) := by
          rw [maximizeFullLoop,
            if_pos (show acc < ut from by rw [huteq]; exact hacc)]
          exact maximizeFullLoop_no_improve ops d rest ut (some move)
            (fun mc hmc => by rw [huteq]; exact le_top)
        rw [hL, hR, hueq, huteq]

/-- **C1**: for every collaborator, board and fixed depth limit, the move and
utility returned by the alpha-beta-pruned search at the root window
`(-∞, +∞)` — timeouts disabled — equal the move and utility returned by the
unpruned full traversal of the same tree (same terminal test, same move
enumeration, same top-4 filtered candidate cells, both tile values, same
strict-improvement move tracking). -/
theorem claim_C1_pruned_equals_unpruned (ops : GridOps) (depth : ℕ)
    (g : Board) :
    maximize ops depth g ⊥ ⊤ = maximizeFull ops depth g := by
  by_cases hterm : depth = 0 ∨ ops.canMove g = false
  · rw [maximize, maximizeFull]
    simp only [dif_pos hterm]
  · rw [maximize, maximizeFull]
    simp only [dif_neg hterm]
    exact maximizeLoop_root ops (depth - 1) (alphaBeta_bounds ops (depth - 1)).2
      (ops.moves g) ⊥ none bot_lt_top

/-- Every member of a list is at most the `max`-fold of the list. -/
lemma le_foldr_max : ∀ (l : List UtilityValue) (x : UtilityValue), x ∈ l →
    x ≤ l.foldr max ⊥ := by
  intro l
  induction l with
  | nil => intro x hx; cases hx
  | cons y rest ih =>
    intro x hx
    rcases List.mem_cons.mp hx with rfl | hx
    · exact le_max_left _ _
    · exact le_trans (ih x hx) (le_max_right _ _)

/-- A `min`-fold from `⊤` over non-`-∞` values is not `-∞`. -/
lemma foldr_min_ne_bot : ∀ (l : List UtilityValue),
    (∀ x ∈ l, x ≠ ⊥) → l.foldr min ⊤ ≠ ⊥ := by
  intro l
  induction l with
  | nil =>
    intro _
    simp only [List.foldr_nil]
    exact top_ne_bot
  | cons y rest ih =>
    intro h
    simp only [List.foldr_cons]
    exact min_ne_bot (h y (by simp)) (ih (fun x hx => h x (by simp [hx])))

/-- With the `canMove` contract, the unpruned search values are never
`-∞`. -/
lemma full_ne_bot (ops : GridOps) (hmc : MovesContract ops) :
    ∀ (d : ℕ) (g : Board),
      (maximizeFull ops d g).1 ≠ ⊥ ∧ (minimizeFull ops d g).1 ≠ ⊥ := by
  intro d
  induction d using Nat.strong_induction_on with
  | _ d ih =>
    intro g
    constructor
    · by_cases hterm : d = 0 ∨ ops.canMove g = false
      · rw [maximizeFull]
        simp only [dif_pos hterm]
        exact uval_ne_bot _
      · have hd : d ≠ 0 := fun hh => hterm (Or.inl hh)
        have hcm : ops.canMove g = true := by
          cases hb : ops.canMove g
          · exact absurd (Or.inr hb) hterm
          · rfl
        rw [maximizeFull_fst ops d g hterm]
        obtain ⟨mc, ms2, hms⟩ : ∃ mc ms2, ops.moves g = mc :: ms2 := by
          cases hms : ops.moves g with
          | nil => exact absurd hms ((hmc g).mp hcm)
          | cons mc ms2 => exact ⟨mc, ms2, rfl⟩
        intro hbot
        have hmem : (minimizeFull ops (d - 1) mc.2).1 ∈
            ((ops.moves g).map (fun mc => (minimizeFull ops (d - 1) mc.2).1)) := by
          rw [hms]
          simp
        have hle := le_foldr_max _ _ hmem
        rw [movesTrueMax] at hbot
        rw [hbot] at hle
        exact (ih (d - 1) (by omega) mc.2).2 (le_bot_iff.mp hle)
    · by_cases hterm : d = 0 ∨ ops.canMove g = false
      · rw [minimizeFull]
        simp only [dif_pos hterm]
        exact uval_ne_bot _
      · have hd : d ≠ 0 := fun hh => hterm (Or.inl hh)
        rw [minimizeFull_fst ops d g hterm, cellsTrueMin]
        refine foldr_min_ne_bot _ ?_
        intro x hx
        obtain ⟨c, -, rfl⟩ := List.mem_map.mp hx
        rw [tilesTrueMin]
        refine foldr_min_ne_bot _ ?_
        intro y hy
        obtain ⟨tv, -, rfl⟩ := List.mem_map.mp hy
        exact (ih (d - 1) (by omega) _).1

/-- The unpruned move loop returns the move at the first index achieving the
maximal chance value, when that value strictly improves on the
accumulator. -/
lemma maximizeFullLoop_first_argmax (ops : GridOps) (d : ℕ) :
    ∀ (ms : List (Move × Board)) (acc : UtilityValue) (best : Option Move)
      (i : Fin ms.length),
      acc < (minimizeFull ops d (ms.get i).2).1 →
      (∀ k : Fin ms.length, (minimizeFull ops d (ms.get k).2).1 ≤
        (minimizeFull ops d (ms.get i).2).1) →
      (∀ k : Fin ms.length, (k : ℕ) < (i : ℕ) →
        (minimizeFull ops d (ms.get k).2).1 <
          (minimizeFull ops d (ms.get i).2).1) →
      (maximizeFullLoop ops d ms acc best).2 = some (ms.get i).1 := by
  intro ms
  induction ms with
  | nil => intro acc best i; exact absurd i.2 (by simp)
  | cons mc rest ih =>
    intro acc best i hacc hmax hfirst
    obtain ⟨move, child⟩ := mc
    rw [maximizeFullLoop]
    cases i using Fin.cases with
    | zero =>
      have hacc0 : acc < (minimizeFull ops d child).1 := hacc
      rw [if_pos hacc0]
      have hall : ∀ mc2 ∈ rest, (minimizeFull ops d mc2.2).1 ≤
          (minimizeFull ops d child).1 := by
        intro mc2 hmc2
        obtain ⟨k, hk⟩ := List.mem_iff_get.mp hmc2
        have h2 := hmax k.succ
        rw [show ((move, child) :: rest).get k.succ = rest.get k from rfl,
          hk] at h2
        exact h2
      rw [maximizeFullLoop_no_improve ops d rest (minimizeFull ops d child).1
        (some move) hall]
      rfl
    | succ i2 =>
      have hmax2 : ∀ k : Fin rest.length,
          (minimizeFull ops d (rest.get k).2).1 ≤
            (minimizeFull ops d (rest.get i2).2).1 := by
        intro k
        have h2 := hmax k.succ
        rw [show ((move, child) :: rest).get k.succ = rest.get k from rfl,
          show ((move, child) :: rest).get i2.succ = rest.get i2 from rfl] at h2
        exact h2
      have hfirst2 : ∀ k : Fin rest.length, (k : ℕ) < (i2 : ℕ) →
          (minimizeFull ops d (rest.get k).2).1 <
            (minimizeFull ops d (rest.get i2).2).1 := by
        intro k hk
        have h2 := hfirst k.succ (by
          simp only [Fin.val_succ]
          omega)
        rw [show ((move, child) :: rest).get k.succ = rest.get k from rfl,
          show ((move, child) :: rest).get i2.succ = rest.get i2 from rfl] at h2
        exact h2
      have hacc2 : acc < (minimizeFull ops d (rest.get i2).2).1 := hacc
      have h0 : (minimizeFull ops d child).1 <
          (minimizeFull ops d (rest.get i2).2).1 := by
        have h2 := hfirst ⟨0, Nat.succ_pos _⟩ (by
          simp only [Fin.val_succ]
          exact Nat.succ_pos _)
        rw [show ((move, child) :: rest).get i2.succ = rest.get i2 from rfl] at h2
        exact h2
      have hgoal : ((move, child) :: rest).get i2.succ = rest.get i2 := rfl
      rw [hgoal]
      split
      · exact ih (minimizeFull ops d child).1 (some move) i2 h0 hmax2 hfirst2
      · exact ih acc best i2 hacc2 hmax2 hfirst2

/-- **C7**: in the maximizing layer, when two or more legal moves tie at the
maximal chance-layer utility, the move returned is the earliest in the
enumeration order of `getAvailableMoves`: the tracked best move is replaced
only on strict improvement, so the first index achieving the maximum wins. -/
theorem claim_C7_earlier_move_wins_ties (ops : GridOps) (g : Board)
    (depth : ℕ) (hmc : MovesContract ops) (hd : depth ≠ 0)
    (hcm : ops.canMove g = true)
    (i j : Fin (ops.moves g).length) (_hij : (i : ℕ) < (j : ℕ))
    (_htie : (minimizeFull ops (depth - 1) ((ops.moves g).get i).2).1 =
      (minimizeFull ops (depth - 1) ((ops.moves g).get j).2).1)
    (hmaxi : ∀ k : Fin (ops.moves g).length,
      (minimizeFull ops (depth - 1) ((ops.moves g).get k).2).1 ≤
        (minimizeFull ops (depth - 1) ((ops.moves g).get i).2).1)
    (hfirst : ∀ k : Fin (ops.moves g).length, (k : ℕ) < (i : ℕ) →
      (minimizeFull ops (depth - 1) ((ops.moves g).get k).2).1 <
        (minimizeFull ops (depth - 1) ((ops.moves g).get i).2).1) :
    (maximize ops depth g ⊥ ⊤).2 = some ((ops.moves g).get i).1 := by
  have hterm : ¬(depth = 0 ∨ ops.canMove g = false) := by
    rintro (h | h)
    · exact hd h
    · rw [hcm] at h
      cases h
  rw [maximize]
  simp only [dif_neg hterm]
  rw [maximizeLoop_root ops (depth - 1) (alphaBeta_bounds ops (depth - 1)).2
    (ops.moves g) ⊥ none bot_lt_top]
  refine maximizeFullLoop_first_argmax ops (depth - 1) (ops.moves g) ⊥ none i
    ?_ hmaxi hfirst
  exact bot_lt_iff_ne_bot.mpr
    (full_ne_bot ops hmc (depth - 1) ((ops.moves g).get i).2).2

/-- `claim_C7_earlier_move_wins_ties` on the two-tying-moves collaborator:
both moves lead to the same child, their utilities tie, and the
first-enumerated move (`up`) is returned. -/
theorem claim_C7_earlier_move_wins_ties_witness :
    MovesContract tieOps ∧
    (maximize tieOps 1 (fun _ _ => (2 : ℕ)) ⊥ ⊤).2 = some Move.up :=
  ⟨fun g => by simp [tieOps, MovesContract],
    claim_C7_earlier_move_wins_ties tieOps (fun _ _ => (2 : ℕ)) 1
      (fun g => by simp [tieOps, MovesContract]) (by omega) rfl
      ⟨0, by simp [tieOps]⟩ ⟨1, by simp [tieOps]⟩ Nat.zero_lt_one rfl
      (fun k => by
        have hmem : (tieOps.moves (fun _ _ => (2 : ℕ))).get k ∈
            tieOps.moves (fun _ _ => (2 : ℕ)) := List.get_mem _ _ _
        have hmem2 : (tieOps.moves (fun _ _ => (2 : ℕ))).get k ∈
            [(Move.up, fun _ _ => (2 : ℕ)), (Move.down, fun _ _ => (2 : ℕ))] :=
          hmem
        rcases List.mem_pair.mp hmem2 with h | h <;> rw [h] <;> exact le_refl _)
      (fun k hk => absurd hk (Nat.not_lt_zero _))⟩

/-- Preservation is reflexive. -/
lemma storePreserved_refl (s : Store) : storePreserved s s :=
  ⟨le_refl _, fun _ _ => rfl⟩

/-- Preservation is transitive. -/
lemma storePreserved_trans {s1 s2 s3 : Store} (h1 : storePreserved s1 s2)
    (h2 : storePreserved s2 s3) : storePreserved s1 s3 :=
  ⟨le_trans h1.1 h2.1, fun k hk =>
    (h2.2 k (lt_of_lt_of_le hk h1.1)).trans (h1.2 k hk)⟩

/-- Allocation preserves all live objects. -/
lemma alloc_preserves (s : Store) (b : Board) :
    storePreserved s (alloc s b).2 :=
  ⟨Nat.le_succ _, fun _ hk => if_neg (Nat.ne_of_lt hk)⟩

/-- Cloning and then writing the fresh clone preserves all live objects. -/
lemma cloneWrite_preserves (s : Store) (b b2 : Board) :
    storePreserved s (writeStore (alloc s b).2 (alloc s b).1 b2) := by
  refine ⟨Nat.le_succ _, fun k hk => ?_⟩
  show (if k = s.next then b2 else (alloc s b).2.mem k) = s.mem k
  rw [if_neg (Nat.ne_of_lt hk)]
  exact (alloc_preserves s b).2 k hk

/-- Allocating the successor boards preserves all live objects. -/
lemma allocMoves_preserves :
    ∀ (ms : List (Move × Board)) (s : Store),
      storePreserved s (allocMoves s ms).2 := by
  intro ms
  induction ms with
  | nil => intro s; exact storePreserved_refl s
  | cons mb rest ih =>
    intro s
    obtain ⟨m, b⟩ := mb
    rw [allocMoves]
    exact storePreserved_trans (alloc_preserves s b) (ih (alloc s b).2)

/-- `chanceS` is `minimizeS`. -/
lemma chanceS_eq (ops : GridOps) (clk : ℕ → ℚ) (start : ℚ) (d : ℕ) (i : ℕ)
    (alpha beta : UtilityValue) (t : ℕ) (s : Store) :
    chanceS ops clk start d i alpha beta t s =
      minimizeS ops clk start d i alpha beta t s := by
  rw [chanceS]

/-- The move loop preserves live objects if the chance layer does. -/
lemma maximizeLoopS_preserves (ops : GridOps) (clk : ℕ → ℚ) (start : ℚ)
    (d : ℕ)
    (hmin : ∀ i alpha beta t s, storePreserved s
      (exceptStore (minimizeS ops clk start d i alpha beta t s))) :
    ∀ (ms : List (Move × ℕ)) alpha beta acc best t s, storePreserved s
      (exceptStore (maximizeLoopS ops clk start d ms alpha beta acc best t s)) := by
  intro ms
  induction ms with
  | nil =>
    intro alpha beta acc best t s
    rw [maximizeLoopS]
    exact storePreserved_refl s
  | cons mj rest ih =>
    intro alpha beta acc best t s
    obtain ⟨move, j⟩ := mj
    rw [maximizeLoopS]
    generalize hq : chanceS ops clk start d j alpha beta t s = res
    rw [chanceS_eq] at hq
    have h1 := hmin j alpha beta t s
    rw [hq] at h1
    cases res with
    | error e => exact h1
    | ok r =>
      obtain ⟨⟨u, mu⟩, t2, s2⟩ := r
      dsimp only
      rcases le_or_lt beta (max alpha u) with hbr | hbr
      · rw [if_pos hbr]
        exact h1
      · rw [if_neg (not_le.mpr hbr)]
        exact storePreserved_trans h1 (ih _ _ _ _ _ _)

/-- The tile loop preserves live objects if the maximizing layer does. -/
lemma minimizeTilesS_preserves (ops : GridOps) (clk : ℕ → ℚ) (start : ℚ)
    (d : ℕ)
    (hmax : ∀ i alpha beta t s, storePreserved s
      (exceptStore (maximizeS ops clk start d i alpha beta t s))) :
    ∀ (ts : List (ℕ × ℚ)) (i : ℕ) (c : Cell) alpha beta acc t s,
      storePreserved s
        (exceptStore (minimizeTilesS ops clk start d i c ts alpha beta acc t s)) := by
  intro ts
  induction ts with
  | nil =>
    intro i c alpha beta acc t s
    rw [minimizeTilesS]
    exact storePreserved_refl s
  | cons tv rest ih =>
    intro i c alpha beta acc t s
    obtain ⟨tileValue, p⟩ := tv
    rw [minimizeTilesS]
    set s1 := writeStore (alloc s (s.mem i)).2 (alloc s (s.mem i)).1
      (setCellValue ((alloc s (s.mem i)).2.mem (alloc s (s.mem i)).1) c
        tileValue) with hs1
    have h0 : storePreserved s s1 := cloneWrite_preserves s (s.mem i) _
    generalize hq : maximizeS ops clk start d (alloc s (s.mem i)).1 alpha beta
      t s1 = res
    have h1 := hmax (alloc s (s.mem i)).1 alpha beta t s1
    rw [hq] at h1
    cases res with
    | error e => exact storePreserved_trans h0 h1
    | ok r =>
      obtain ⟨⟨u, mu⟩, t2, s2⟩ := r
      dsimp only
      rcases le_or_lt (min beta u) alpha with hbr | hbr
      · rw [if_pos hbr]
        exact storePreserved_trans h0 h1
      · rw [if_neg (not_le.mpr hbr)]
        exact storePreserved_trans (storePreserved_trans h0 h1)
          (ih _ _ _ _ _ _ _)

/-- The cell loop preserves live objects if the maximizing layer does. -/
lemma minimizeCellsS_preserves (ops : GridOps) (clk : ℕ → ℚ) (start : ℚ)
    (d : ℕ)
    (hmax : ∀ i alpha beta t s, storePreserved s
      (exceptStore (maximizeS ops clk start d i alpha beta t s))) :
    ∀ (cs : List Cell) (i : ℕ) alpha beta acc t s, storePreserved s
      (exceptStore (minimizeCellsS ops clk start d i cs alpha beta acc t s)) := by
  intro cs
  induction cs with
  | nil =>
    intro i alpha beta acc t s
    rw [minimizeCellsS]
    exact storePreserved_refl s
  | cons c rest ih =>
    intro i alpha beta acc t s
    rw [minimizeCellsS]
    generalize hq : minimizeTilesS ops clk start d i c
      possibleTileProbabilities alpha beta acc t s = res
    have h1 := minimizeTilesS_preserves ops clk start d hmax
      possibleTileProbabilities i c alpha beta acc t s
    rw [hq] at h1
    cases res with
    | error e => exact h1
    | ok r =>
      obtain ⟨⟨acc2, beta2⟩, t2, s2⟩ := r
      dsimp only
      rcases le_or_lt beta2 alpha with hbr | hbr
      · rw [if_pos hbr]
        exact h1
      · rw [if_neg (not_le.mpr hbr)]
        exact storePreserved_trans h1 (ih _ _ _ _ _ _)

/-- Both search layers preserve every live object, at every depth: the only
writes target freshly cloned ids. -/
lemma searchS_preserves (ops : GridOps) (clk : ℕ → ℚ) (start : ℚ) :
    ∀ d : ℕ,
      (∀ i alpha beta t s, storePreserved s
        (exceptStore (maximizeS ops clk start d i alpha beta t s))) ∧
      (∀ i alpha beta t s, storePreserved s
        (exceptStore (minimizeS ops clk start d i alpha beta t s))) := by
  intro d
  induction d using Nat.strong_induction_on with
  | _ d ih =>
    constructor
    · intro i alpha beta t s
      rw [maximizeS]
      split
      · exact storePreserved_refl s
      · rename_i hterm
        split
        · exact storePreserved_refl s
        · have hd : d ≠ 0 := fun hh => hterm (Or.inl hh)
          refine storePreserved_trans
            (allocMoves_preserves (ops.moves (s.mem i)) s) ?_
          exact maximizeLoopS_preserves ops clk start (d - 1)
            (fun iB aB bB tB sB => (ih (d - 1) (by omega)).2 iB aB bB tB sB)
            _ _ _ _ _ _ _
    · intro i alpha beta t s
      rw [minimizeS]
      split
      · exact storePreserved_refl s
      · rename_i hterm
        split
        · exact storePreserved_refl s
        · have hd : d ≠ 0 := fun hh => hterm (Or.inl hh)
          have h1 := minimizeCellsS_preserves ops clk start (d - 1)
            (fun iB aB bB tB sB => (ih (d - 1) (by omega)).1 iB aB bB tB sB)
            (rankCells ops (s.mem i)) i alpha beta ⊤ (t + 1) s
          generalize hq : minimizeCellsS ops clk start (d - 1) i
            (rankCells ops (s.mem i)) alpha beta ⊤ (t + 1) s = res
          rw [hq] at h1
          cases res with
          | error e => exact h1
          | ok r =>
            obtain ⟨v, t2, s2⟩ := r
            exact h1

/-- The iterative-deepening loop preserves every live object. -/
lemma getMoveLoopS_preserves (ops : GridOps) (clk : ℕ → ℚ) (start : ℚ)
    (i : ℕ) : ∀ (fuel depth : ℕ) (best : Option Move) (t : ℕ) (s : Store),
    storePreserved s (getMoveLoopS ops clk start i fuel depth best t s).2 := by
  intro fuel
  induction fuel with
  | zero => intro depth best t s; exact storePreserved_refl s
  | succ f ih =>
    intro depth best t s
    rw [getMoveLoopS]
    split
    · generalize hq : maximizeS ops clk start depth i ⊥ ⊤ (t + 1) s = res
      have h1 := (searchS_preserves ops clk start depth).1 i ⊥ ⊤ (t + 1) s
      rw [hq] at h1
      cases res with
      | error e => exact h1
      | ok r =>
        obtain ⟨⟨v, mv⟩, t2, s2⟩ := r
        exact storePreserved_trans h1 (ih _ _ _ _)
    · exact storePreserved_refl s

/-- **C6**: the caller's board is unchanged by `getMove`: in the
store-passing embedding the search only reads the input object, mutating
only freshly cloned ids (and the successor copies handed out by
`getAvailableMoves`), so after `getMove` — timeout or not — every cell of
the input board, and indeed every previously allocated object, is identical
to what it was before the call. -/
theorem claim_C6_getMove_never_mutates_input (ops : GridOps) (clk : ℕ → ℚ)
    (fuel : ℕ) (s : Store) (i : ℕ) (hi : i < s.next) :
    (∀ x y, (getMoveS ops clk fuel i s).2.mem i x y = s.mem i x y) ∧
    (∀ k, k < s.next → (getMoveS ops clk fuel i s).2.mem k = s.mem k) := by
  have h : storePreserved s (getMoveS ops clk fuel i s).2 := by
    rw [getMoveS]
    exact getMoveLoopS_preserves ops clk (clk 0) i fuel 1 none 1 s
  exact ⟨fun x y => by rw [h.2 i hi], h.2⟩

/-- `claim_C6_getMove_never_mutates_input` on a concrete one-object store. -/
theorem claim_C6_getMove_never_mutates_input_witness :
    (0 : ℕ) < (Store.mk 1 (fun _ => fun _ _ => (2 : ℕ))).next ∧
    ∀ k, k < (Store.mk 1 (fun _ => fun _ _ => (2 : ℕ))).next →
      (getMoveS noMoveOps (fun _ => 0) 2 0
        (Store.mk 1 (fun _ => fun _ _ => (2 : ℕ)))).2.mem k =
      (Store.mk 1 (fun _ => fun _ _ => (2 : ℕ))).mem k :=
  ⟨by decide,
    (claim_C6_getMove_never_mutates_input noMoveOps (fun _ => 0) 2
      (Store.mk 1 (fun _ => fun _ _ => (2 : ℕ))) 0 (by decide)).2⟩

end Agent2048
